import Mathlib

/-!
# cryptolog: pseudonymising IP addresses in log lines

A shallow embedding of `cryptolog.go`.

* The address patterns `ipv4Exp`, `ipv6Exp`, `ipExp` are the pattern strings of the source.
  `Compile` is a model of Go's `regexp.Compile` for the syntax they use (groups,
  alternation, bracket classes, `\d`, escaped punctuation, `.`, `^`, `$`, `*`, `+`, `?`,
  `{n,m}` and the lazy variants), with the expansion of counted repetitions that
  `Simplify` performs. The parser's rewritings of alternations, which do not change what
  is matched, are not modelled.
* Matching is a backtracking matcher in continuation-passing style. It returns the match
  that Go's `regexp` documents: the leftmost one, and among those the one a backtracking
  search finds first.
* `ReplaceAllStringFunc` follows the loop of Go's `Regexp.replaceAll`.
* `hashIP` is HMAC-MD5 (RFC 2104, RFC 1321) followed by standard base64, cut to six
  characters; the salt it reads under the mutex is a parameter.
* `generateSalt` and the `hashIP` calls of the line loop of `main` are step functions over
  an explicit state with the mutex, the pending deferred calls and the salt. The behaviour
  of `rand.Read` is an input: the call returns, possibly with an error, or the library ends
  the process on a failing source, as the toolchain decides.

Text is a `List Char`, one `Char` per rune of valid UTF-8, and positions count characters.
Bytes and machine words are natural numbers reduced modulo `2^8` and `2^32`.
-/

namespace Cryptolog

/-! ## Regular expressions: syntax -/

/-- Simplified regular expressions, as produced by Go's `syntax.Parse` followed by
`Simplify` (counted repetitions are already expanded). -/
inductive Regex where
  | empty : Regex
  | fail : Regex
  | cls (ranges : List (Nat × Nat)) : Regex
  | bol : Regex
  | eol : Regex
  | cap (r : Regex) : Regex
  | star (greedy : Bool) (r : Regex) : Regex
  | plus (greedy : Bool) (r : Regex) : Regex
  | quest (greedy : Bool) (r : Regex) : Regex
  | cat (a b : Regex) : Regex
  | alt (a b : Regex) : Regex
deriving DecidableEq

/-- Concatenation of a sequence of expressions (Go's n-ary `OpConcat`). -/
def mkCat : List Regex → Regex
  | [] => .empty
  | [r] => r
  | r :: rs => .cat r (mkCat rs)

/-- Alternation of a sequence of expressions in priority order (Go's n-ary `OpAlternate`). -/
def mkAlt : List Regex → Regex
  | [] => .fail
  | [r] => r
  | r :: rs => .alt r (mkAlt rs)

/-- The nested optional tail `(x(x(x)?)?)?` with `n` copies of `x`, as built by `Simplify`. -/
def optTail (greedy : Bool) (sub : Regex) : Nat → Regex
  | 0 => .empty
  | 1 => .quest greedy sub
  | n + 1 => .quest greedy (.cat sub (optTail greedy sub n))

/-- Expansion of `x{min,max}` by `Simplify`; `max = none` is the open repetition `x{min,}`. -/
def mkRepeat (greedy : Bool) (min : Nat) (max : Option Nat) (sub : Regex) : Regex :=
  match max with
  | none =>
    if min = 0 then .star greedy sub
    else if min = 1 then .plus greedy sub
    else mkCat (List.replicate (min - 1) sub ++ [.plus greedy sub])
  | some mx =>
    if min = 0 ∧ mx = 0 then .empty
    else if min = 1 ∧ mx = 1 then sub
    else if mx < min then .fail
    else if mx = min then mkCat (List.replicate min sub)
    else mkCat (List.replicate min sub ++ [optTail greedy sub (mx - min)])

/-! ## Regular expressions: parser -/

/-- One open group of the parser: finished alternatives and the items of the
current concatenation, both most recent first. -/
structure Frame where
  alts : List Regex
  cur : List Regex

/-- The expression of a finished group. -/
def Frame.close (f : Frame) : Regex :=
  mkAlt (mkCat f.cur.reverse :: f.alts).reverse

/-- Decimal value of a digit string. -/
def parseDec (ds : List Char) : Nat :=
  ds.foldl (fun n c => 10 * n + (c.toNat - 48)) 0

/-- Whether a character is one of `0`..`9`. -/
def isDecDigit (c : Char) : Bool := decide (48 ≤ c.toNat) && decide (c.toNat ≤ 57)

/-- Reads the body of `{n}`, `{n,}` or `{n,m}` after the opening brace. -/
def parseRepeat (s : List Char) : Option (Nat × Option Nat × List Char) :=
  match s.span isDecDigit with
  | ([], _) => none
  | (d1, '}' :: rest) => some (parseDec d1, some (parseDec d1), rest)
  | (d1, ',' :: rest) =>
    match rest.span isDecDigit with
    | ([], '}' :: rest2) => some (parseDec d1, none, rest2)
    | ([], _) => none
    | (d2, '}' :: rest2) => some (parseDec d1, some (parseDec d2), rest2)
    | _ => none
  | _ => none

/-- Reads the items of a bracket class after `[`, up to and including `]`.
Negation and escapes inside a class are not supported. -/
def parseClass : List Char → List (Nat × Nat) → Option (List (Nat × Nat) × List Char)
  | [], _ => none
  | ']' :: rest, acc => if acc.isEmpty then none else some (acc.reverse, rest)
  | '\\' :: _, _ => none
  | lo :: '-' :: ']' :: rest, acc => some (((45, 45) :: (lo.toNat, lo.toNat) :: acc).reverse, rest)
  | lo :: '-' :: hi :: rest, acc =>
    if hi.toNat < lo.toNat ∨ hi = '\\' then none else parseClass rest ((lo.toNat, hi.toNat) :: acc)
  | c :: rest, acc => parseClass rest ((c.toNat, c.toNat) :: acc)

/-- Splits off a lazy marker `?` after a repetition operator. -/
def takeLazy : List Char → Bool × List Char
  | '?' :: rest => (false, rest)
  | rest => (true, rest)

/-- Pushes an item on the current concatenation of the innermost open group. -/
def pushItem (r : Regex) : List Frame → Option (List Frame)
  | [] => none
  | f :: fs => some ({ f with cur := r :: f.cur } :: fs)

/-- Applies a repetition operator to the last item of the innermost open group. -/
def applyPostfix (op : Regex → Regex) : List Frame → Option (List Frame)
  | [] => none
  | f :: fs =>
    match f.cur with
    | [] => none
    | r :: rs => some ({ f with cur := op r :: rs } :: fs)

/-- The class of `.`: every character except the newline. -/
def anyNotNL : Regex := .cls [(0, 9), (11, 1114111)]

/-- The class of `\d`. -/
def digitClass : Regex := .cls [(48, 57)]

/-- Characters that may be escaped with a backslash to stand for themselves. -/
def isPunct (c : Char) : Bool :=
  let n := c.toNat
  (decide (33 ≤ n) && decide (n ≤ 47)) || (decide (58 ≤ n) && decide (n ≤ 64)) ||
  (decide (91 ≤ n) && decide (n ≤ 96)) || (decide (123 ≤ n) && decide (n ≤ 126))

/-- The parser loop: a stack of open groups, as in Go's `syntax.Parse`. -/
def parseLoop : Nat → List Char → List Frame → Option Regex
  | 0, _, _ => none
  | _ + 1, [], [f] => some f.close
  | _ + 1, [], _ => none
  | fuel + 1, c :: rest, st =>
    if c = '(' then
      match rest with
      | '?' :: _ => none
      | _ => parseLoop fuel rest ({ alts := [], cur := [] } :: st)
    else if c = ')' then
      match st with
      | f :: g :: fs => parseLoop fuel rest ({ g with cur := .cap f.close :: g.cur } :: fs)
      | _ => none
    else if c = '|' then
      match st with
      | f :: fs => parseLoop fuel rest ({ alts := mkCat f.cur.reverse :: f.alts, cur := [] } :: fs)
      | [] => none
    else if c = '^' then (pushItem .bol st).bind (parseLoop fuel rest)
    else if c = '$' then (pushItem .eol st).bind (parseLoop fuel rest)
    else if c = '.' then (pushItem anyNotNL st).bind (parseLoop fuel rest)
    else if c = '[' then
      match rest with
      | '^' :: _ => none
      | _ =>
        match parseClass rest [] with
        | none => none
        | some (rs, rest2) => (pushItem (.cls rs) st).bind (parseLoop fuel rest2)
    else if c = '\\' then
      match rest with
      | [] => none
      | e :: rest2 =>
        if e = 'd' then (pushItem digitClass st).bind (parseLoop fuel rest2)
        else if isPunct e then (pushItem (.cls [(e.toNat, e.toNat)]) st).bind (parseLoop fuel rest2)
        else none
    else if c = '*' then
      let (g, rest2) := takeLazy rest
      (applyPostfix (.star g) st).bind (parseLoop fuel rest2)
    else if c = '+' then
      let (g, rest2) := takeLazy rest
      (applyPostfix (.plus g) st).bind (parseLoop fuel rest2)
    else if c = '?' then
      let (g, rest2) := takeLazy rest
      (applyPostfix (.quest g) st).bind (parseLoop fuel rest2)
    else if c = '{' then
      match parseRepeat rest with
      | none => (pushItem (.cls [(123, 123)]) st).bind (parseLoop fuel rest)
      | some (mn, mx, rest2) =>
        if 1000 < mn ∨ 1000 < mx.getD 0 ∨ mx.getD mn < mn then none
        else
          let (g, rest3) := takeLazy rest2
          (applyPostfix (mkRepeat g mn mx) st).bind (parseLoop fuel rest3)
    else (pushItem (.cls [(c.toNat, c.toNat)]) st).bind (parseLoop fuel rest)

/-- Go's `regexp.Compile` on the supported subset: `none` stands for the `nil`
regexp returned together with an error. -/
def Compile (pattern : String) : Option Regex :=
  parseLoop (pattern.length + 1) pattern.data [{ alts := [], cur := [] }]

/-! ## The patterns of the source -/

/-- Pattern for IPv4 addresses. -/
def ipv4Exp : String := "(\\d\\d?\\d?\\.\\d\\d?\\d?\\.\\d\\d?\\d?\\.\\d\\d?\\d?)"

/-- Pattern for IPv6 addresses (one alternative per line of the definition). -/
def ipv6Exp : String :=
  "(([0-9a-fA-F]{1,4}:){7,7}[0-9a-fA-F]{1,4}|" ++
  "([0-9a-fA-F]{1,4}:){1,7}:|" ++
  "([0-9a-fA-F]{1,4}:){1,6}:[0-9a-fA-F]{1,4}|" ++
  "([0-9a-fA-F]{1,4}:){1,5}(:[0-9a-fA-F]{1,4}){1,2}|" ++
  "([0-9a-fA-F]{1,4}:){1,4}(:[0-9a-fA-F]{1,4}){1,3}|" ++
  "([0-9a-fA-F]{1,4}:){1,3}(:[0-9a-fA-F]{1,4}){1,4}|" ++
  "([0-9a-fA-F]{1,4}:){1,2}(:[0-9a-fA-F]{1,4}){1,5}|" ++
  "[0-9a-fA-F]{1,4}:((:[0-9a-fA-F]{1,4}){1,6})|" ++
  ":((:[0-9a-fA-F]{1,4}){1,7}|:)|" ++
  "fe80:(:[0-9a-fA-F]{0,4}){0,4}%[0-9a-zA-Z]{1,}|" ++
  "::(ffff(:0{1,4}){0,1}:){0,1}((25[0-5]|(2[0-4]|1{0,1}[0-9]){0,1}[0-9])\\.){3,3}(25[0-5]|(2[0-4]|1{0,1}[0-9]){0,1}[0-9])|" ++
  "([0-9a-fA-F]{1,4}:){1,4}:((25[0-5]|(2[0-4]|1{0,1}[0-9]){0,1}[0-9])\\.){3,3}(25[0-5]|(2[0-4]|1{0,1}[0-9]){0,1}[0-9]))"

/-- Pattern for either kind of address: `ipv4Exp + "|" + ipv6Exp`. -/
def ipExp : String := ipv4Exp ++ "|" ++ ipv6Exp

/-- Translation of `compileRegexp`; the compile error is discarded as in the source, so a
failed compilation yields `none` (the `nil` regexp). -/
def compileRegexp (replaceAll : Bool) : Option Regex :=
  if replaceAll then Compile ipExp
  else Compile ("^(.*?)" ++ ipExp ++ "(.*)$")

/-! ## Regular expressions: matching -/

/-- Membership of a code point in a list of inclusive ranges. -/
def inRanges : List (Nat × Nat) → Nat → Bool
  | [], _ => false
  | (lo, hi) :: rs, n => (decide (lo ≤ n) && decide (n ≤ hi)) || inRanges rs n

/-- What remains to be matched: receives the position reached and the rest of the text. -/
abbrev Cont := Nat → List Char → Option Nat

/-- Repetition of `body`, with backtracking priorities of `x*` (greedy) or `x*?` (lazy).
An iteration that consumes nothing is not repeated. -/
def starLoop (body : Nat → List Char → Cont → Option Nat) (greedy : Bool) :
    Nat → Nat → List Char → Cont → Option Nat
  | 0, _, _, _ => none
  | fuel + 1, p, s, k =>
    if greedy then
      match body p s (fun q t => if q = p then none else starLoop body greedy fuel q t k) with
      | some e => some e
      | none => k p s
    else
      match k p s with
      | some e => some e
      | none => body p s (fun q t => if q = p then none else starLoop body greedy fuel q t k)

/-- Backtracking match of `r` at position `p` with remaining text `s`; the first success in
priority order wins (leftmost-first semantics). -/
def matchK : Regex → Nat → List Char → Cont → Option Nat
  | .empty, p, s, k => k p s
  | .fail, _, _, _ => none
  | .cls rs, p, s, k =>
    match s with
    | [] => none
    | c :: cs => if inRanges rs c.toNat then k (p + 1) cs else none
  | .bol, p, s, k => if p = 0 then k p s else none
  | .eol, p, s, k =>
    match s with
    | [] => k p []
    | _ :: _ => none
  | .cap r, p, s, k => matchK r p s k
  | .star g r, p, s, k => starLoop (matchK r) g (s.length + 1) p s k
  | .plus g r, p, s, k => matchK r p s (fun q t => starLoop (matchK r) g (t.length + 1) q t k)
  | .quest g r, p, s, k =>
    if g then
      match matchK r p s k with
      | some e => some e
      | none => k p s
    else
      match k p s with
      | some e => some e
      | none => matchK r p s k
  | .cat a b, p, s, k => matchK a p s (fun q t => matchK b q t k)
  | .alt a b, p, s, k =>
    match matchK a p s k with
    | some e => some e
    | none => matchK b p s k

/-- End of the preferred match of `re` that starts exactly at position `p`. -/
def matchAt (re : Regex) (p : Nat) (s : List Char) : Option Nat :=
  matchK re p s (fun e _ => some e)

/-- Leftmost match at or after position `p`, where `s` is the text from `p` on. -/
def searchFrom (re : Regex) : Nat → List Char → Option (Nat × Nat)
  | p, [] => (matchAt re p []).map (fun e => (p, e))
  | p, c :: cs =>
    match matchAt re p (c :: cs) with
    | some e => some (p, e)
    | none => searchFrom re (p + 1) cs

/-- Model of `Regexp.doExecute` restricted to the overall match: the `[start, end)` positions
of the leftmost-first match of `re` in `src` that starts at or after `pos`. -/
def doExecute (re : Regex) (src : List Char) (pos : Nat) : Option (Nat × Nat) :=
  if pos ≤ src.length then searchFrom re pos (src.drop pos) else none

/-- The text `src[a:b]`. -/
def slice (src : List Char) (a b : Nat) : List Char := (src.drop a).take (b - a)

/-- The loop of Go's `Regexp.replaceAll`. State: `lastMatchEnd`, `searchPos` and the output
buffer. Positions count characters; the width of the rune at `searchPos` is `1` inside the
text and `0` at its end. `none` only when the fuel runs out. -/
def replaceAll (re : Regex) (src : List Char) (repl : List Char → List Char) :
    Nat → Nat → Nat → List Char → Option (List Char)
  | 0, _, _, _ => none
  | fuel + 1, lastMatchEnd, searchPos, buf =>
    if searchPos ≤ src.length then
      match doExecute re src searchPos with
      | none => some (buf ++ src.drop lastMatchEnd)
      | some (a0, a1) =>
        let buf1 := buf ++ slice src lastMatchEnd a0
        let buf2 := if a1 > lastMatchEnd ∨ a0 = 0 then buf1 ++ repl (slice src a0 a1) else buf1
        let width := if searchPos < src.length then 1 else 0
        let searchPos1 :=
          if searchPos + width > a1 then searchPos + width
          else if searchPos + 1 > a1 then searchPos + 1
          else a1
        replaceAll re src repl fuel a1 searchPos1 buf2
    else some (buf ++ src.drop lastMatchEnd)

/-- Model of `(*Regexp).ReplaceAllStringFunc`: every match is replaced by `repl` applied to the
matched text. The search position grows in every round, so `src.length + 2` rounds suffice. -/
def ReplaceAllStringFunc (re : Regex) (src : List Char) (repl : List Char → List Char) :
    Option (List Char) :=
  replaceAll re src repl (src.length + 2) 0 0 []

/-! ## HMAC-MD5 and base64 -/

/-- The four chaining words of MD5. -/
structure MD5State where
  a : Nat
  b : Nat
  c : Nat
  d : Nat

/-- The sine table of MD5 (RFC 1321). -/
def md5K : List Nat :=
  [0xd76aa478, 0xe8c7b756, 0x242070db, 0xc1bdceee,
   0xf57c0faf, 0x4787c62a, 0xa8304613, 0xfd469501,
   0x698098d8, 0x8b44f7af, 0xffff5bb1, 0x895cd7be,
   0x6b901122, 0xfd987193, 0xa679438e, 0x49b40821,
   0xf61e2562, 0xc040b340, 0x265e5a51, 0xe9b6c7aa,
   0xd62f105d, 0x02441453, 0xd8a1e681, 0xe7d3fbc8,
   0x21e1cde6, 0xc33707d6, 0xf4d50d87, 0x455a14ed,
   0xa9e3e905, 0xfcefa3f8, 0x676f02d9, 0x8d2a4c8a,
   0xfffa3942, 0x8771f681, 0x6d9d6122, 0xfde5380c,
   0xa4beea44, 0x4bdecfa9, 0xf6bb4b60, 0xbebfbc70,
   0x289b7ec6, 0xeaa127fa, 0xd4ef3085, 0x04881d05,
   0xd9d4d039, 0xe6db99e5, 0x1fa27cf8, 0xc4ac5665,
   0xf4292244, 0x432aff97, 0xab9423a7, 0xfc93a039,
   0x655b59c3, 0x8f0ccc92, 0xffeff47d, 0x85845dd1,
   0x6fa87e4f, 0xfe2ce6e0, 0xa3014314, 0x4e0811a1,
   0xf7537e82, 0xbd3af235, 0x2ad7d2bb, 0xeb86d391]

/-- The rotation amounts of MD5, per round. -/
def md5S : List Nat :=
  [7, 12, 17, 22, 7, 12, 17, 22, 7, 12, 17, 22, 7, 12, 17, 22,
   5, 9, 14, 20, 5, 9, 14, 20, 5, 9, 14, 20, 5, 9, 14, 20,
   4, 11, 16, 23, 4, 11, 16, 23, 4, 11, 16, 23, 4, 11, 16, 23,
   6, 10, 15, 21, 6, 10, 15, 21, 6, 10, 15, 21, 6, 10, 15, 21]

/-- Left rotation of a 32-bit word. -/
def rotl32 (x n : Nat) : Nat :=
  ((x <<< n) % 2 ^ 32) ||| ((x % 2 ^ 32) >>> (32 - n))

/-- Bitwise complement of a 32-bit word. -/
def not32 (x : Nat) : Nat := (2 ^ 32 - 1) - x % 2 ^ 32

/-- One of the 64 steps of the MD5 compression function on block words `m`. -/
def md5Step (m : List Nat) (st : MD5State) (i : Nat) : MD5State :=
  let f :=
    if i < 16 then (st.b &&& st.c) ||| (not32 st.b &&& st.d)
    else if i < 32 then (st.d &&& st.b) ||| (not32 st.d &&& st.c)
    else if i < 48 then (st.b ^^^ st.c) ^^^ st.d
    else st.c ^^^ (st.b ||| not32 st.d)
  let g :=
    if i < 16 then i
    else if i < 32 then (5 * i + 1) % 16
    else if i < 48 then (3 * i + 5) % 16
    else (7 * i) % 16
  let t := (f + st.a + md5K.getD i 0 + m.getD g 0) % 2 ^ 32
  { a := st.d, b := (st.b + rotl32 t (md5S.getD i 0)) % 2 ^ 32, c := st.b, d := st.c }

/-- Little-endian 32-bit word of four bytes. -/
def leWord (bs : List Nat) : Nat :=
  bs.getD 0 0 % 256 + 256 * (bs.getD 1 0 % 256) + 65536 * (bs.getD 2 0 % 256) +
    16777216 * (bs.getD 3 0 % 256)

/-- The sixteen words of a 64-byte block. -/
def blockWords (block : List Nat) : List Nat :=
  (List.range 16).map (fun j => leWord ((block.drop (4 * j)).take 4))

/-- The MD5 compression function: all 64 steps on one block, then the feed-forward. -/
def md5Block (st : MD5State) (block : List Nat) : MD5State :=
  let r := (List.range 64).foldl (md5Step (blockWords block)) st
  { a := (st.a + r.a) % 2 ^ 32, b := (st.b + r.b) % 2 ^ 32,
    c := (st.c + r.c) % 2 ^ 32, d := (st.d + r.d) % 2 ^ 32 }

/-- The bytes of `n`, least significant first, `k` of them. -/
def leBytes : Nat → Nat → List Nat
  | 0, _ => []
  | k + 1, n => n % 256 :: leBytes k (n / 256)

/-- MD5 padding: a `0x80` byte, zeros up to 56 modulo 64, then the bit length in 8 bytes. -/
def md5Pad (msg : List Nat) : List Nat :=
  msg ++ [128] ++ List.replicate ((119 - msg.length % 64) % 64) 0 ++
    leBytes 8 ((8 * msg.length) % 2 ^ 64)

/-- Folds the compression function over the 64-byte blocks of the padded message. -/
def md5Blocks : Nat → MD5State → List Nat → MD5State
  | 0, st, _ => st
  | n + 1, st, bytes => md5Blocks n (md5Block st (bytes.take 64)) (bytes.drop 64)

/-- The 16-byte MD5 digest of a byte sequence. -/
def md5 (msg : List Nat) : List Nat :=
  let padded := md5Pad msg
  let st := md5Blocks (padded.length / 64)
    { a := 0x67452301, b := 0xefcdab89, c := 0x98badcfe, d := 0x10325476 } padded
  leBytes 4 st.a ++ leBytes 4 st.b ++ leBytes 4 st.c ++ leBytes 4 st.d

/-- HMAC (RFC 2104) with MD5, as computed by `hmac.New(md5.New, key)`, `Write`, `Sum`. -/
def hmacMD5 (key msg : List Nat) : List Nat :=
  let key1 := if key.length > 64 then md5 key else key
  let key2 := key1 ++ List.replicate (64 - key1.length) 0
  let ipad := key2.map (fun b => (b % 256) ^^^ 0x36)
  let opad := key2.map (fun b => (b % 256) ^^^ 0x5c)
  md5 (opad ++ md5 (ipad ++ msg))

/-- The alphabet of `base64.StdEncoding`. -/
def encodeStd : List Char :=
  "ABCDEFGHIJKLMNOPQRSTUVWXYZabcdefghijklmnopqrstuvwxyz0123456789+/".toList

/-- The character for a 6-bit value. -/
def b64Char (v : Nat) : Char := encodeStd.getD (v % 64) 'A'

/-- Model of `base64.StdEncoding.EncodeToString`: three bytes give four characters, a
remainder of one or two bytes is padded with `=`. -/
def EncodeToString : List Nat → List Char
  | b0 :: b1 :: b2 :: rest =>
    let val := 65536 * (b0 % 256) + 256 * (b1 % 256) + b2 % 256
    b64Char (val / 262144) :: b64Char (val / 4096) :: b64Char (val / 64) :: b64Char val ::
      EncodeToString rest
  | [b0, b1] =>
    let val := 65536 * (b0 % 256) + 256 * (b1 % 256)
    [b64Char (val / 262144), b64Char (val / 4096), b64Char (val / 64), '=']
  | [b0] =>
    let val := 65536 * (b0 % 256)
    [b64Char (val / 262144), b64Char (val / 4096), '=', '=']
  | [] => []

/-- The bytes of a string (`[]byte(ip)`): the UTF-8 encoding of its characters. -/
def stringBytes (s : List Char) : List Nat :=
  s.flatMap (fun c => (String.utf8EncodeChar c).map UInt8.toNat)

/-- Translation of `hashIP`, with the salt that the function reads under the mutex as a
parameter. The slice `[:6]` is `List.take 6`; that it is in bounds is part of `hashIP_six`. -/
def hashIP (salt : List Nat) (ip : List Char) : List Char :=
  let hashedIP := hmacMD5 salt (stringBytes ip)
  (EncodeToString hashedIP).take 6

/-- Translation of `processSingleLogEntry`: every match of `r` in the entry is replaced by
its `hashIP`. A `nil` regexp (`none`) has no result. -/
def processSingleLogEntry (salt : List Nat) (logEntry : List Char) (r : Option Regex) :
    Option (List Char) :=
  match r with
  | none => none
  | some re => ReplaceAllStringFunc re logEntry (hashIP salt)

/-- The characters of the standard base64 alphabet, without the padding character. -/
def isBase64Char (c : Char) : Bool :=
  let n := c.toNat
  (decide (65 ≤ n) && decide (n ≤ 90)) || (decide (97 ≤ n) && decide (n ≤ 122)) ||
  (decide (48 ≤ n) && decide (n ≤ 57)) || decide (n = 43) || decide (n = 47)

/-- Whether an expression can match the empty string. -/
def nullable : Regex → Bool
  | .empty => true
  | .fail => false
  | .cls _ => false
  | .bol => true
  | .eol => true
  | .cap r => nullable r
  | .star _ _ => true
  | .plus _ r => nullable r
  | .quest _ _ => true
  | .cat a b => nullable a && nullable b
  | .alt a b => nullable a || nullable b

/-- Whether an expression is free of the begin-of-text assertion `^`. -/
def bolFree : Regex → Bool
  | .empty => true
  | .fail => true
  | .cls _ => true
  | .bol => false
  | .eol => true
  | .cap r => bolFree r
  | .star _ r => bolFree r
  | .plus _ r => bolFree r
  | .quest _ r => bolFree r
  | .cat a b => bolFree a && bolFree b
  | .alt a b => bolFree a && bolFree b

/-- A matcher only ever hands its continuation a suffix of the text, at the matching
position; when `strict`, it consumes at least one character. -/
def Advances (strict : Bool) (m : Nat → List Char → Cont → Option Nat) : Prop :=
  ∀ p s k x, m p s k = some x →
    ∃ n, n ≤ s.length ∧ (strict = true → 0 < n) ∧ k (p + n) (s.drop n) = some x

/-- A matcher does not depend on the absolute position. -/
def ShiftInv (m : Nat → List Char → Cont → Option Nat) : Prop :=
  ∀ p d s k, m (p + d) s k = m p s (fun e t => k (e + d) t)

/-- A matcher commutes with a relabelling of the result of its continuation. -/
def Natural (m : Nat → List Char → Cont → Option Nat) : Prop :=
  ∀ (f : Nat → Nat) p s k, m p s (fun e t => (k e t).map f) = (m p s k).map f

/-- Follows the spec's words: the pseudonym of a matched address is the first six characters
of `base64(HMAC-MD5(key = salt, message = address))`. -/
def pseudonym (salt : List Nat) (m : List Char) : List Char :=
  (EncodeToString (hmacMD5 salt (stringBytes m))).take 6

/-- Follows the spec's words: `ReplacedEach re f s out` says that `out` is `s` with each
successive non-overlapping leftmost match `m` of `re` replaced by `f m`, all text outside the
matches being kept in place; a text without a match is left as it is. -/
inductive ReplacedEach (re : Regex) (f : List Char → List Char) :
    List Char → List Char → Prop where
  | done (s : List Char) : doExecute re s 0 = none → ReplacedEach re f s s
  | step (pre m post out : List Char) : m ≠ [] →
      doExecute re (pre ++ m ++ post) 0 = some (pre.length, pre.length + m.length) →
      ReplacedEach re f post out →
      ReplacedEach re f (pre ++ m ++ post) (pre ++ f m ++ out)

/-- A matcher calls its continuation only at positions `p + n` with the text `s.drop n`. -/
def Local (m : Nat → List Char → Cont → Option Nat) : Prop :=
  ∀ p s (k k2 : Cont), (∀ n, n ≤ s.length → k (p + n) (s.drop n) = k2 (p + n) (s.drop n)) →
    m p s k = m p s k2

/-- A piece of the output of `replaceAll`: text copied from the source, or a match that is
handed to the replacement function. -/
inductive Seg where
  | lit (t : List Char) : Seg
  | mat (m : List Char) : Seg
deriving DecidableEq

/-- The output text of a sequence of pieces under the replacement function `f`. -/
def render (f : List Char → List Char) : List Seg → List Char
  | [] => []
  | .lit t :: rest => t ++ render f rest
  | .mat m :: rest => f m ++ render f rest

/-- The pieces that `replaceAll` appends to its buffer, independently of the replacement
function. -/
def segsLoop (re : Regex) (src : List Char) : Nat → Nat → Nat → Option (List Seg)
  | 0, _, _ => none
  | fuel + 1, lastMatchEnd, searchPos =>
    if searchPos ≤ src.length then
      match doExecute re src searchPos with
      | none => some [.lit (src.drop lastMatchEnd)]
      | some (a0, a1) =>
        let width := if searchPos < src.length then 1 else 0
        let searchPos1 :=
          if searchPos + width > a1 then searchPos + width
          else if searchPos + 1 > a1 then searchPos + 1
          else a1
        (segsLoop re src fuel a1 searchPos1).map (fun rest =>
          if a1 > lastMatchEnd ∨ a0 = 0 then
            .lit (slice src lastMatchEnd a0) :: .mat (slice src a0 a1) :: rest
          else .lit (slice src lastMatchEnd a0) :: rest)
    else some [.lit (src.drop lastMatchEnd)]

/-- The pieces of a whole entry under the regexp of `compileRegexp replaceAll`. -/
def segments (replaceAll : Bool) (logEntry : List Char) : Option (List Seg) :=
  (compileRegexp replaceAll).bind (fun re => segsLoop re logEntry (logEntry.length + 2) 0 0)

/-- The compiled form of one `\d\d?\d?` of `ipv4Exp`, followed by `rest`. -/
def octetThen (rest : Regex) : Regex :=
  .cat digitClass (.cat (.quest true digitClass) (.cat (.quest true digitClass) rest))

/-- The compiled form of `\.` followed by `rest`. -/
def dotThen (rest : Regex) : Regex := .cat (.cls [(46, 46)]) rest

/-- The compiled form of the last `\d\d?\d?` of `ipv4Exp`. -/
def lastOctet : Regex :=
  .cat digitClass (.cat (.quest true digitClass) (.quest true digitClass))

/-- The compiled form of the inside of the group `ipv4Exp`. -/
def ipv4Regexp : Regex :=
  octetThen (dotThen (octetThen (dotThen (octetThen (dotThen lastOctet)))))

/-- The compiled form of `ipv6Exp`. -/
def ipv6Regexp : Regex := (Compile ipv6Exp).getD .fail

/-- A group of one to three decimal digits. -/
def isDigitGroup (g : List Char) : Bool :=
  decide (1 ≤ g.length) && decide (g.length ≤ 3) && g.all isDecDigit

/-! ## The salt goroutine and the line loop as a transition system -/

/-- The two goroutines of the program. -/
inductive Tid where
  | gen : Tid
  | main : Tid
deriving DecidableEq

/-- Control points of `generateSalt`: the statement of the loop body that runs next. -/
inductive GenPc where
  | lock : GenPc
  | deferUnlock : GenPc
  | read : GenPc
  | sleep : GenPc
deriving DecidableEq

/-- Control points of a `hashIP` call of the line loop: `mu.Lock()`, the computation of the
digest from the salt, and the return, which runs the deferred `mu.Unlock()`. -/
inductive MainPc where
  | lock : MainPc
  | hash : MainPc
  | ret : MainPc
deriving DecidableEq

/-- What a call of `rand.Read(salt)` that returns has done: the bytes it produced (all of
the buffer on success, possibly fewer on failure) and whether it returned a non-nil error. -/
structure ReadResult where
  bytes : List Nat
  err : Bool
deriving DecidableEq

/-- The behaviours of `crypto/rand.Read`. The call returns, with a non-nil error when the
random source fails (Go up to 1.23); or, when the source fails, the library itself ends the
process and the call does not return (Go 1.24 and later, where `Read` returns no error). The
source does not fix the toolchain, so both are part of the model. -/
inductive RandRead where
  | returns (r : ReadResult) : RandRead
  | aborts : RandRead
deriving DecidableEq

/-- The program state shared by the two goroutines. `writes` counts the returned calls of
`rand.Read(salt)`, `genDeferred` the deferred `mu.Unlock()` calls of `generateSalt` that are
still pending, `seen` records for every `hashIP` call that has computed its digest the value
of `writes` at that moment and the salt that the call read. -/
structure Sys where
  mu : Option Tid
  genPc : GenPc
  genDeferred : Nat
  salt : List Nat
  writes : Nat
  mainPc : MainPc
  seen : List (Nat × List Nat)
deriving DecidableEq

/-- What executing a statement does: continue in a new state, block (on `mu.Lock()`), or end
the process with a fatal error. -/
inductive Outcome where
  | next (s : Sys) : Outcome
  | blocked : Outcome
  | fatal : Outcome
deriving DecidableEq

/-- The initial value of the package variable `salt`: `make([]byte, 16)`. -/
def zeroSalt : List Nat := List.replicate 16 0

/-- The state at program start: `salt = make([]byte, 16)`, the mutex free, `generateSalt` just
started with `go`, the line loop before its first `hashIP`. -/
def Sys.init : Sys :=
  { mu := none, genPc := .lock, genDeferred := 0, salt := zeroSalt, writes := 0,
    mainPc := .lock, seen := [] }

/-- The buffer after `rand.Read`: the bytes read overwrite its beginning. -/
def fill (buf bytes : List Nat) : List Nat :=
  bytes.take buf.length ++ buf.drop bytes.length

/-- One statement of `generateSalt`. `mu.Lock()` blocks while the mutex is held, by whomever
(`sync.Mutex` is not reentrant); `defer mu.Unlock()` only registers the call, which would run
when `generateSalt` returns; the statement `rand.Read(salt)` discards both results of a call
that returns, and the process ends there when the library aborts; after `time.Sleep(delay)`
the `for` loop starts over. -/
def generateSalt (x : RandRead) (s : Sys) : Outcome :=
  match s.genPc with
  | .lock =>
    match s.mu with
    | none => .next { s with mu := some .gen, genPc := .deferUnlock }
    | some _ => .blocked
  | .deferUnlock => .next { s with genDeferred := s.genDeferred + 1, genPc := .read }
  | .read =>
    match x with
    | .returns r =>
      .next { s with salt := fill s.salt r.bytes, writes := s.writes + 1, genPc := .sleep }
    | .aborts => .fatal
  | .sleep => .next { s with genPc := .lock }

/-- One step of a `hashIP` call in the line loop of `main`. -/
def mainHashIP (s : Sys) : Outcome :=
  match s.mainPc with
  | .lock =>
    match s.mu with
    | none => .next { s with mu := some .main, mainPc := .hash }
    | some _ => .blocked
  | .hash => .next { s with seen := (s.writes, s.salt) :: s.seen, mainPc := .ret }
  | .ret => .next { s with mu := none, mainPc := .lock }

/-- A scheduling decision: which goroutine runs its next statement (with the behaviour of
`rand.Read`, used if that statement is the call of it). -/
inductive Label where
  | gen (x : RandRead) : Label
  | main : Label
deriving DecidableEq

/-- One step of the program under a scheduling decision. -/
def step (l : Label) (s : Sys) : Outcome :=
  match l with
  | .gen x => generateSalt x s
  | .main => mainHashIP s

/-- Runs a schedule; `none` when the schedule picks a blocked goroutine or the process has
ended. -/
def run : List Label → Sys → Option Sys
  | [], s => some s
  | l :: ls, s =>
    match step l s with
    | .next t => run ls t
    | _ => none

/-- The states the program can be in. -/
def Reachable (s : Sys) : Prop := ∃ ls, run ls Sys.init = some s

/-- A result of `rand.Read` that reports an error after three bytes. -/
def failedRead : ReadResult := { bytes := [1, 2, 3], err := true }

/-- A failure of the random source after it has produced `bytes`, as `rand.Read` presents it:
the process is ended by the library (`libraryAborts`), or the call returns with an error. -/
def sourceFailure (libraryAborts : Bool) (bytes : List Nat) : RandRead :=
  if libraryAborts then .aborts else .returns { bytes := bytes, err := true }

/-- The state in which `generateSalt` is about to call `rand.Read` for the first time. -/
def beforeRead : Sys :=
  { mu := some .gen, genPc := .read, genDeferred := 1, salt := zeroSalt, writes := 0,
    mainPc := .lock, seen := [] }

/-- What holds in every reachable state: either `generateSalt` has not locked the mutex yet
and the salt is untouched, or it holds the mutex, the line loop is outside `hashIP`, and the
generator is at one of the four points it can reach. -/
def Inv (s : Sys) : Prop :=
  (∀ e ∈ s.seen, e = (0, zeroSalt)) ∧
  ((s.genPc = .lock ∧ s.genDeferred = 0 ∧ s.writes = 0 ∧ s.salt = zeroSalt ∧
      ((s.mu = none ∧ s.mainPc = .lock) ∨ (s.mu = some .main ∧ s.mainPc = .hash) ∨
        (s.mu = some .main ∧ s.mainPc = .ret))) ∨
    (s.mu = some .gen ∧ s.mainPc = .lock ∧
      ((s.genPc = .deferUnlock ∧ s.genDeferred = 0 ∧ s.writes = 0 ∧
          s.salt = zeroSalt) ∨
        (s.genPc = .read ∧ s.genDeferred = 1 ∧ s.writes = 0 ∧ s.salt = zeroSalt) ∨
        (s.genPc = .sleep ∧ s.genDeferred = 1 ∧ s.writes = 1) ∨
        (s.genPc = .lock ∧ s.genDeferred = 1 ∧ s.writes = 1))))

/-! ## Theorems -/

set_option maxRecDepth 1000000

theorem leBytes_length (k n : Nat) : (leBytes k n).length = k := by
  induction k generalizing n with
  | zero => rfl
  | succ k ih => simp [leBytes, ih]

theorem md5_length (msg : List Nat) : (md5 msg).length = 16 := by
  simp [md5, leBytes_length]

theorem hmacMD5_length (key msg : List Nat) : (hmacMD5 key msg).length = 16 := by
  simp [hmacMD5, md5_length]

theorem b64Char_std (v : Nat) : isBase64Char (b64Char v) = true ∧ b64Char v ≠ '=' := by
  have h : ∀ i : Fin 64, isBase64Char (encodeStd.getD i.val 'A') = true ∧
      encodeStd.getD i.val 'A' ≠ '=' := by decide!
  exact h ⟨v % 64, Nat.mod_lt _ (by decide)⟩

theorem encode16 (bs : List Nat) (h : bs.length = 16) :
    (EncodeToString bs).length = 24 ∧
    ((EncodeToString bs).take 6).length = 6 ∧
    ∀ c ∈ (EncodeToString bs).take 6, isBase64Char c = true ∧ c ≠ '=' := by
  match bs, h with
  | [b0, b1, b2, b3, b4, b5, b6, b7, b8, b9, b10, b11, b12, b13, b14, b15], _ =>
    refine ⟨by simp [EncodeToString], by simp [EncodeToString], ?_⟩
    intro c hc
    simp only [EncodeToString, List.take_succ_cons, List.take_zero, List.mem_cons,
      List.mem_nil_iff, or_false] at hc
    rcases hc with h | h | h | h | h | h <;> subst h <;> exact b64Char_std _

/-! ## Known answers of the hash functions -/

/-- The MD5 digest of the empty message (RFC 1321, appendix A.5). -/
theorem md5_empty : md5 [] =
    [0xd4, 0x1d, 0x8c, 0xd9, 0x8f, 0x00, 0xb2, 0x04,
     0xe9, 0x80, 0x09, 0x98, 0xec, 0xf8, 0x42, 0x7e] := by decide!

/-- The MD5 digest of `abc` (RFC 1321, appendix A.5). -/
theorem md5_abc : md5 (stringBytes "abc".toList) =
    [0x90, 0x01, 0x50, 0x98, 0x3c, 0xd2, 0x4f, 0xb0,
     0xd6, 0x96, 0x3f, 0x7d, 0x28, 0xe1, 0x7f, 0x72] := by decide!

/-- HMAC-MD5 test case 1 of RFC 2202: key of sixteen `0x0b` bytes, data `Hi There`. -/
theorem hmacMD5_rfc2202 : hmacMD5 (List.replicate 16 0x0b) (stringBytes "Hi There".toList) =
    [0x92, 0x94, 0x72, 0x7a, 0x36, 0x38, 0xbb, 0x1c,
     0x13, 0xf4, 0x8e, 0xf8, 0x15, 0x8b, 0xfc, 0x9d] := by decide!

/-- The base64 test vectors of RFC 4648 with zero, one and two padding characters. -/
theorem EncodeToString_rfc4648 :
    EncodeToString (stringBytes "foobar".toList) = "Zm9vYmFy".toList ∧
    EncodeToString (stringBytes "fooba".toList) = "Zm9vYmE=".toList ∧
    EncodeToString (stringBytes "foob".toList) = "Zm9vYg==".toList := by decide!

/-- The pseudonym of `10.0.0.1` under the initial salt of sixteen zero bytes. -/
theorem hashIP_zeroSalt : hashIP zeroSalt "10.0.0.1".toList = "HPZLRn".toList := by decide!

theorem Advances.weaken {b : Bool} {m : Nat → List Char → Cont → Option Nat}
    (h : Advances b m) : Advances false m := by
  intro p s k x hx
  obtain ⟨n, hn, _, hk⟩ := h p s k x hx
  exact ⟨n, hn, by simp, hk⟩

theorem starLoop_advances {body : Nat → List Char → Cont → Option Nat} (g : Bool)
    (hb : Advances false body) (fuel : Nat) : Advances false (starLoop body g fuel) := by
  induction fuel with
  | zero => intro p s k x hx; simp [starLoop] at hx
  | succ fuel ih =>
    intro p s k x hx
    have again : body p s (fun q t => if q = p then none else starLoop body g fuel q t k) = some x →
        ∃ n, n ≤ s.length ∧ (false = true → 0 < n) ∧ k (p + n) (s.drop n) = some x := by
      intro h
      obtain ⟨n, hn, _, hk⟩ := hb p s _ x h
      by_cases hq : p + n = p
      · simp [hq] at hk
      · simp only [hq, if_false] at hk
        obtain ⟨m, hm, _, hk2⟩ := ih (p + n) (s.drop n) k x hk
        refine ⟨n + m, ?_, by simp, ?_⟩
        · simp only [List.length_drop] at hm; omega
        · rw [List.drop_drop] at hk2
          rw [← Nat.add_assoc]; exact hk2
    have stop : k p s = some x →
        ∃ n, n ≤ s.length ∧ (false = true → 0 < n) ∧ k (p + n) (s.drop n) = some x :=
      fun h => ⟨0, Nat.zero_le _, by simp, by simpa using h⟩
    unfold starLoop at hx
    cases g with
    | true =>
      simp only [if_true] at hx
      split at hx
      · next e he => cases hx; exact again he
      · exact stop hx
    | false =>
      simp only [Bool.false_eq_true, if_false] at hx
      split at hx
      · next e he => cases hx; exact stop he
      · exact again hx

theorem matchK_advances (r : Regex) : Advances (!nullable r) (matchK r) := by
  induction r with
  | empty => intro p s k x hx; exact ⟨0, Nat.zero_le _, by simp [nullable], by simpa [matchK] using hx⟩
  | fail => intro p s k x hx; simp [matchK] at hx
  | cls rs =>
    intro p s k x hx
    cases s with
    | nil => simp [matchK] at hx
    | cons c cs =>
      simp only [matchK] at hx
      split at hx
      · exact ⟨1, by simp, by simp, by simpa using hx⟩
      · simp at hx
  | bol =>
    intro p s k x hx
    simp only [matchK] at hx
    split at hx
    · exact ⟨0, Nat.zero_le _, by simp [nullable], by simpa using hx⟩
    · simp at hx
  | eol =>
    intro p s k x hx
    cases s with
    | nil => exact ⟨0, Nat.zero_le _, by simp [nullable], by simpa [matchK] using hx⟩
    | cons c cs => simp [matchK] at hx
  | cap r ih => intro p s k x hx; exact ih p s k x (by simpa [matchK] using hx)
  | star g r ih =>
    intro p s k x hx
    simp only [matchK] at hx
    obtain ⟨n, hn, _, hk⟩ := starLoop_advances g ih.weaken _ p s k x hx
    exact ⟨n, hn, by simp [nullable], hk⟩
  | plus g r ih =>
    intro p s k x hx
    simp only [matchK] at hx
    obtain ⟨n, hn, hpos, hk⟩ := ih p s _ x hx
    obtain ⟨m, hm, _, hk2⟩ := starLoop_advances g ih.weaken _ _ _ k x hk
    refine ⟨n + m, ?_, ?_, ?_⟩
    · simp only [List.length_drop] at hm; omega
    · intro h; have := hpos (by simpa [nullable] using h); omega
    · rw [List.drop_drop] at hk2; rw [← Nat.add_assoc]; exact hk2
  | quest g r ih =>
    intro p s k x hx
    have stop : k p s = some x →
        ∃ n, n ≤ s.length ∧ ((!nullable (.quest g r)) = true → 0 < n) ∧
          k (p + n) (s.drop n) = some x :=
      fun h => ⟨0, Nat.zero_le _, by simp [nullable], by simpa using h⟩
    have again : matchK r p s k = some x →
        ∃ n, n ≤ s.length ∧ ((!nullable (.quest g r)) = true → 0 < n) ∧
          k (p + n) (s.drop n) = some x := by
      intro h
      obtain ⟨n, hn, _, hk⟩ := ih p s k x h
      exact ⟨n, hn, by simp [nullable], hk⟩
    simp only [matchK] at hx
    cases g with
    | true =>
      simp only [if_true] at hx
      split at hx
      · next e he => cases hx; exact again he
      · exact stop hx
    | false =>
      simp only [Bool.false_eq_true, if_false] at hx
      split at hx
      · next e he => cases hx; exact stop he
      · exact again hx
  | cat a b iha ihb =>
    intro p s k x hx
    simp only [matchK] at hx
    obtain ⟨n, hn, hpos, hk⟩ := iha p s _ x hx
    obtain ⟨m, hm, hpos2, hk2⟩ := ihb _ _ k x hk
    refine ⟨n + m, ?_, ?_, ?_⟩
    · simp only [List.length_drop] at hm; omega
    · intro h
      simp only [nullable, Bool.not_and, Bool.or_eq_true] at h
      rcases h with h | h
      · have := hpos h; omega
      · have := hpos2 h; omega
    · rw [List.drop_drop] at hk2; rw [← Nat.add_assoc]; exact hk2
  | alt a b iha ihb =>
    intro p s k x hx
    simp only [matchK] at hx
    split at hx
    · next e he =>
      cases hx
      obtain ⟨n, hn, hpos, hk⟩ := iha p s k _ he
      refine ⟨n, hn, ?_, hk⟩
      intro h; apply hpos
      simp only [nullable, Bool.not_or, Bool.and_eq_true] at h
      exact h.1
    · obtain ⟨n, hn, hpos, hk⟩ := ihb p s k x hx
      refine ⟨n, hn, ?_, hk⟩
      intro h; apply hpos
      simp only [nullable, Bool.not_or, Bool.and_eq_true] at h
      exact h.2

theorem starLoop_shift {body : Nat → List Char → Cont → Option Nat} (g : Bool)
    (hb : ShiftInv body) (fuel : Nat) : ShiftInv (starLoop body g fuel) := by
  induction fuel with
  | zero => intro p d s k; simp [starLoop]
  | succ fuel ih =>
    intro p d s k
    have hk : (fun e t => (fun q t => if q = p + d then none else starLoop body g fuel q t k)
          (e + d) t) =
        (fun q t => if q = p then none
          else starLoop body g fuel q t (fun e t => k (e + d) t)) := by
      funext e t
      by_cases h : e = p
      · simp [h]
      · have h2 : ¬ e + d = p + d := by omega
        simp only [h, h2, if_false]
        exact ih e d t k
    have hbody := hb p d s (fun q t => if q = p + d then none else starLoop body g fuel q t k)
    rw [hk] at hbody
    simp only [starLoop, hbody]

theorem matchK_shift (r : Regex) (h : bolFree r = true) : ShiftInv (matchK r) := by
  induction r with
  | empty => intro p d s k; simp [matchK]
  | fail => intro p d s k; simp [matchK]
  | cls rs =>
    intro p d s k
    cases s with
    | nil => simp [matchK]
    | cons c cs => simp only [matchK, Nat.add_right_comm]
  | bol => simp [bolFree] at h
  | eol =>
    intro p d s k
    cases s with
    | nil => simp [matchK]
    | cons c cs => simp [matchK]
  | cap r ih => intro p d s k; simpa [matchK] using ih (by simpa [bolFree] using h) p d s k
  | star g r ih =>
    intro p d s k
    simp only [matchK]
    exact starLoop_shift g (ih (by simpa [bolFree] using h)) _ p d s k
  | plus g r ih =>
    intro p d s k
    have hr := ih (by simpa [bolFree] using h)
    simp only [matchK]
    rw [hr p d s]
    congr 1
    funext e t
    exact starLoop_shift g hr _ e d t k
  | quest g r ih =>
    intro p d s k
    have hr := ih (by simpa [bolFree] using h)
    simp only [matchK, hr p d s k]
  | cat a b iha ihb =>
    intro p d s k
    simp only [bolFree, Bool.and_eq_true] at h
    simp only [matchK]
    rw [iha h.1 p d s]
    congr 1
    funext e t
    exact ihb h.2 e d t k
  | alt a b iha ihb =>
    intro p d s k
    simp only [bolFree, Bool.and_eq_true] at h
    simp only [matchK, iha h.1 p d s k, ihb h.2 p d s k]

theorem orElse_map (f : Nat → Nat) (a b : Option Nat) :
    (match a.map f with
      | some e => some e
      | none => b.map f) =
    (match a with
      | some e => some e
      | none => b).map f := by
  cases a <;> simp

theorem starLoop_natural {body : Nat → List Char → Cont → Option Nat} (g : Bool)
    (hb : Natural body) (fuel : Nat) : Natural (starLoop body g fuel) := by
  induction fuel with
  | zero => intro f p s k; simp [starLoop]
  | succ fuel ih =>
    intro f p s k
    have hk : (fun q t => if q = p then none
          else starLoop body g fuel q t (fun e t => (k e t).map f)) =
        (fun q t => (if q = p then none else starLoop body g fuel q t k).map f) := by
      funext q t
      by_cases h : q = p
      · simp [h]
      · simp only [h, if_false]
        exact ih f q t k
    simp only [starLoop, hk, hb f p s]
    cases g with
    | true => simp only [if_true]; exact orElse_map f _ _
    | false => simp only [Bool.false_eq_true, if_false]; exact orElse_map f _ _

theorem matchK_natural (r : Regex) : Natural (matchK r) := by
  induction r with
  | empty => intro f p s k; simp [matchK]
  | fail => intro f p s k; simp [matchK]
  | cls rs =>
    intro f p s k
    cases s with
    | nil => simp [matchK]
    | cons c cs =>
      simp only [matchK]
      split <;> simp
  | bol =>
    intro f p s k
    simp only [matchK]
    split <;> simp
  | eol =>
    intro f p s k
    cases s with
    | nil => simp [matchK]
    | cons c cs => simp [matchK]
  | cap r ih => intro f p s k; simpa [matchK] using ih f p s k
  | star g r ih =>
    intro f p s k
    simp only [matchK]
    exact starLoop_natural g ih _ f p s k
  | plus g r ih =>
    intro f p s k
    simp only [matchK]
    rw [← ih f p s]
    congr 1
    funext e t
    exact starLoop_natural g ih _ f e t k
  | quest g r ih =>
    intro f p s k
    simp only [matchK, ih f p s k]
    cases g with
    | true => simp only [if_true]; exact orElse_map f _ _
    | false => simp only [Bool.false_eq_true, if_false]; exact orElse_map f _ _
  | cat a b iha ihb =>
    intro f p s k
    simp only [matchK]
    rw [← iha f p s]
    congr 1
    funext e t
    exact ihb f e t k
  | alt a b iha ihb =>
    intro f p s k
    simp only [matchK, iha f p s k, ihb f p s k]
    exact orElse_map f _ _

theorem matchAt_shift (re : Regex) (h : bolFree re = true) (p d : Nat) (s : List Char) :
    matchAt re (p + d) s = (matchAt re p s).map (· + d) := by
  unfold matchAt
  rw [matchK_shift re h p d s]
  exact matchK_natural re (· + d) p s (fun e _ => some e)

theorem matchAt_bounds (re : Regex) (p : Nat) (s : List Char) (e : Nat)
    (h : matchAt re p s = some e) :
    p ≤ e ∧ e ≤ p + s.length ∧ (nullable re = false → p < e) := by
  obtain ⟨n, hn, hpos, hk⟩ := matchK_advances re p s _ e h
  simp only [Option.some.injEq] at hk
  subst hk
  refine ⟨by omega, by omega, ?_⟩
  intro hnull
  have := hpos (by simp [hnull])
  omega

theorem searchFrom_shift (re : Regex) (h : bolFree re = true) (d : Nat) (s : List Char) :
    ∀ p, searchFrom re (p + d) s = (searchFrom re p s).map (fun ab => (ab.1 + d, ab.2 + d)) := by
  induction s with
  | nil =>
    intro p
    simp only [searchFrom, matchAt_shift re h, Option.map_map]
    rfl
  | cons c cs ih =>
    intro p
    simp only [searchFrom, matchAt_shift re h]
    cases hm : matchAt re p (c :: cs) with
    | some e => simp
    | none =>
      simp only [Option.map_none']
      rw [Nat.add_right_comm]
      exact ih (p + 1)

theorem searchFrom_bounds (re : Regex) (s : List Char) :
    ∀ p a b, searchFrom re p s = some (a, b) →
      p ≤ a ∧ a ≤ b ∧ b ≤ p + s.length ∧ (nullable re = false → a < b) := by
  induction s with
  | nil =>
    intro p a b hs
    simp only [searchFrom, Option.map_eq_some', Prod.mk.injEq] at hs
    obtain ⟨e, he, rfl, rfl⟩ := hs
    have := matchAt_bounds re _ _ _ he
    exact ⟨Nat.le_refl _, this.1, this.2.1, this.2.2⟩
  | cons c cs ih =>
    intro p a b hs
    simp only [searchFrom] at hs
    cases hm : matchAt re p (c :: cs) with
    | some e =>
      simp only [hm, Option.some.injEq, Prod.mk.injEq] at hs
      obtain ⟨rfl, rfl⟩ := hs
      have := matchAt_bounds re _ _ _ hm
      exact ⟨Nat.le_refl _, this.1, this.2.1, this.2.2⟩
    | none =>
      simp only [hm] at hs
      obtain ⟨h1, h2, h3, h4⟩ := ih (p + 1) a b hs
      simp only [List.length_cons]
      exact ⟨by omega, h2, by omega, h4⟩

theorem doExecute_drop (re : Regex) (h : bolFree re = true) (src : List Char) (sp : Nat)
    (hsp : sp ≤ src.length) :
    doExecute re src sp =
      (doExecute re (src.drop sp) 0).map (fun ab => (ab.1 + sp, ab.2 + sp)) := by
  have := searchFrom_shift re h sp (src.drop sp) 0
  simp only [Nat.zero_add] at this
  simp [doExecute, hsp, this]

theorem split_at_span (t : List Char) (a b : Nat) (hab : a ≤ b) :
    t = t.take a ++ (t.drop a).take (b - a) ++ t.drop b := by
  have h1 : t.drop b = (t.drop a).drop (b - a) := by
    rw [List.drop_drop]; congr 1; omega
  rw [h1, List.append_assoc, List.take_append_drop, List.take_append_drop]

theorem replaceAllLoop_spec (re : Regex) (hb : bolFree re = true) (hn : nullable re = false)
    (src : List Char) (f : List Char → List Char) :
    ∀ fuel sp buf, sp ≤ src.length → src.length + 2 ≤ fuel + sp →
      ∃ out, replaceAll re src f fuel sp sp buf = some (buf ++ out) ∧
        ReplacedEach re f (src.drop sp) out := by
  intro fuel
  induction fuel with
  | zero => intro sp buf h1 h2; omega
  | succ fuel ih =>
    intro sp buf hsp hfuel
    have hd := doExecute_drop re hb src sp hsp
    cases hrel : doExecute re (src.drop sp) 0 with
    | none =>
      rw [hrel] at hd
      refine ⟨src.drop sp, ?_, ReplacedEach.done _ hrel⟩
      simp [replaceAll, hsp, hd]
    | some ab =>
      obtain ⟨a, b⟩ := ab
      rw [hrel] at hd
      simp only [Option.map_some'] at hd
      have hbnd : 0 ≤ a ∧ a ≤ b ∧ b ≤ 0 + (src.drop sp).length ∧ (nullable re = false → a < b) := by
        apply searchFrom_bounds re (src.drop sp) 0 a b
        simpa [doExecute] using hrel
      obtain ⟨-, hab, hblen, hlt⟩ := hbnd
      have hlt := hlt hn
      simp only [List.length_drop, Nat.zero_add] at hblen
      obtain ⟨out, hout, hrec⟩ := ih (b + sp)
        (buf ++ slice src sp (a + sp) ++ f (slice src (a + sp) (b + sp))) (by omega) (by omega)
      have hpre : slice src sp (a + sp) = (src.drop sp).take a := by
        simp [slice]
      have hm : slice src (a + sp) (b + sp) = ((src.drop sp).drop a).take (b - a) := by
        have e1 : b + sp - (a + sp) = b - a := by omega
        have e2 : sp + a = a + sp := Nat.add_comm _ _
        simp only [slice, List.drop_drop, e1, e2]
      have hpost : src.drop (b + sp) = (src.drop sp).drop b := by
        rw [List.drop_drop]; congr 1; omega
      refine ⟨(src.drop sp).take a ++ f (((src.drop sp).drop a).take (b - a)) ++ out, ?_, ?_⟩
      · have c1 : b + sp > sp ∨ a + sp = 0 := Or.inl (by omega)
        have c2 : ¬ (sp + (if sp < src.length then 1 else 0) > b + sp) := by
          split <;> omega
        have c3 : ¬ (sp + 1 > b + sp) := by omega
        rw [hpre, hm] at hout
        simp only [replaceAll, hsp, hd, if_true, c1, c2, c3, if_false, hpre, hm]
        simpa only [List.append_assoc] using hout
      · have hsplit := split_at_span (src.drop sp) a b hab
        have hstep := @ReplacedEach.step re f ((src.drop sp).take a)
          (((src.drop sp).drop a).take (b - a)) ((src.drop sp).drop b) out
          (by
            intro h0
            have := congrArg List.length h0
            simp only [List.length_take, List.length_drop, List.length_nil] at this
            omega)
          (by
            rw [← hsplit, hrel]
            simp only [List.length_take, List.length_drop, Option.some.injEq, Prod.mk.injEq]
            omega)
          (by rw [← hpost]; exact hrec)
        rw [← hsplit] at hstep
        exact hstep

theorem ReplaceAllStringFunc_spec (re : Regex) (hb : bolFree re = true)
    (hn : nullable re = false) (src : List Char) (f : List Char → List Char) :
    ∃ out, ReplaceAllStringFunc re src f = some out ∧ ReplacedEach re f src out := by
  obtain ⟨out, h1, h2⟩ := replaceAllLoop_spec re hb hn src f (src.length + 2) 0 []
    (Nat.zero_le _) (by omega)
  exact ⟨out, by simpa [ReplaceAllStringFunc] using h1, by simpa using h2⟩

theorem local_shift {p : Nat} {s : List Char} {k k2 : Cont}
    (h : ∀ n, n ≤ s.length → k (p + n) (s.drop n) = k2 (p + n) (s.drop n)) (n : Nat)
    (hn : n ≤ s.length) :
    ∀ m, m ≤ (s.drop n).length →
      k (p + n + m) ((s.drop n).drop m) = k2 (p + n + m) ((s.drop n).drop m) := by
  intro m hm
  simp only [List.length_drop] at hm
  have := h (n + m) (by omega)
  rw [List.drop_drop, Nat.add_assoc]
  exact this

theorem starLoop_local {body : Nat → List Char → Cont → Option Nat} (g : Bool)
    (hb : Local body) (fuel : Nat) : Local (starLoop body g fuel) := by
  induction fuel with
  | zero => intro p s k k2 _; simp [starLoop]
  | succ fuel ih =>
    intro p s k k2 h
    have h0 : k p s = k2 p s := by simpa using h 0 (Nat.zero_le _)
    have hbody : body p s (fun q t => if q = p then none else starLoop body g fuel q t k) =
        body p s (fun q t => if q = p then none else starLoop body g fuel q t k2) := by
      apply hb
      intro n hn
      by_cases hq : p + n = p
      · simp [hq]
      · simp only [hq, if_false]
        exact ih _ _ k k2 (local_shift h n hn)
    simp only [starLoop, h0, hbody]

theorem matchK_local (r : Regex) : Local (matchK r) := by
  induction r with
  | empty => intro p s k k2 h; simpa [matchK] using h 0 (Nat.zero_le _)
  | fail => intro p s k k2 _; simp [matchK]
  | cls rs =>
    intro p s k k2 h
    cases s with
    | nil => simp [matchK]
    | cons c cs =>
      have := h 1 (by simp)
      simp only [List.drop_succ_cons, List.drop_zero] at this
      simp only [matchK, this]
  | bol =>
    intro p s k k2 h
    have := h 0 (Nat.zero_le _)
    simp only [Nat.add_zero, List.drop_zero] at this
    simp only [matchK, this]
  | eol =>
    intro p s k k2 h
    cases s with
    | nil => simpa [matchK] using h 0 (Nat.zero_le _)
    | cons c cs => simp [matchK]
  | cap r ih => intro p s k k2 h; simpa [matchK] using ih p s k k2 h
  | star g r ih =>
    intro p s k k2 h
    simp only [matchK]
    exact starLoop_local g ih _ p s k k2 h
  | plus g r ih =>
    intro p s k k2 h
    simp only [matchK]
    apply ih
    intro n hn
    exact starLoop_local g ih _ _ _ k k2 (local_shift h n hn)
  | quest g r ih =>
    intro p s k k2 h
    have h0 : k p s = k2 p s := by simpa using h 0 (Nat.zero_le _)
    simp only [matchK, h0, ih p s k k2 h]
  | cat a b iha ihb =>
    intro p s k k2 h
    simp only [matchK]
    apply iha
    intro n hn
    exact ihb _ _ k k2 (local_shift h n hn)
  | alt a b iha ihb =>
    intro p s k k2 h
    simp only [matchK, iha p s k k2 h, ihb p s k k2 h]

/-- The fuel of `starLoop` is enough: any fuel above the length of the text gives the same
result, every round of the loop consuming at least one character. -/
theorem starLoop_fuel {body : Nat → List Char → Cont → Option Nat} (g : Bool)
    (hb : Local body) :
    ∀ fuel p s k, s.length < fuel →
      starLoop body g (fuel + 1) p s k = starLoop body g fuel p s k := by
  intro fuel
  induction fuel with
  | zero => intro p s k h; omega
  | succ fuel ih =>
    intro p s k h
    have hbody : body p s (fun q t => if q = p then none
          else starLoop body g (fuel + 1) q t k) =
        body p s (fun q t => if q = p then none else starLoop body g fuel q t k) := by
      apply hb
      intro n hn
      by_cases hq : p + n = p
      · simp [hq]
      · simp only [hq, if_false]
        apply ih
        simp only [List.length_drop]
        omega
    rw [starLoop, hbody, starLoop]

theorem starLoop_fuel_add {body : Nat → List Char → Cont → Option Nat} (g : Bool)
    (hb : Local body) (p : Nat) (s : List Char) (k : Cont) (extra : Nat) :
    starLoop body g (s.length + 1 + extra) p s k = starLoop body g (s.length + 1) p s k := by
  induction extra with
  | zero => rfl
  | succ extra ih =>
    rw [← Nat.add_assoc, starLoop_fuel g hb _ p s k (by omega), ih]

theorem matchK_star_fuel (g : Bool) (r : Regex) (p : Nat) (s : List Char) (k : Cont)
    (extra : Nat) :
    starLoop (matchK r) g (s.length + 1 + extra) p s k = matchK (.star g r) p s k := by
  simp only [matchK]
  exact starLoop_fuel_add g (matchK_local r) p s k extra

theorem doExecute_bounds (re : Regex) (src : List Char) (sp a0 a1 : Nat)
    (h : doExecute re src sp = some (a0, a1)) : sp ≤ a0 ∧ a0 ≤ a1 ∧ a1 ≤ src.length := by
  unfold doExecute at h
  split at h
  · next hsp =>
    obtain ⟨h1, h2, h3, -⟩ := searchFrom_bounds re _ _ _ _ h
    simp only [List.length_drop] at h3
    exact ⟨h1, h2, by omega⟩
  · cases h

theorem next_searchPos (sp len a1 : Nat) (h1 : sp ≤ a1) (h2 : a1 ≤ len) :
    sp + 1 ≤ (if sp + (if sp < len then 1 else 0) > a1 then sp + (if sp < len then 1 else 0)
        else if sp + 1 > a1 then sp + 1 else a1) ∧
      (if sp + (if sp < len then 1 else 0) > a1 then sp + (if sp < len then 1 else 0)
        else if sp + 1 > a1 then sp + 1 else a1) ≤ len + 1 := by
  split_ifs <;> omega

/-- The fuel of `replaceAll` is enough: the search position grows in every round, so the
loop ends within `src.length + 2` rounds, for every regexp and replacement function. -/
theorem replaceAll_fuel (re : Regex) (src : List Char) (f : List Char → List Char) :
    ∀ fuel lme sp buf, sp ≤ src.length + 1 → src.length + 2 ≤ fuel + sp →
      ∃ out, replaceAll re src f fuel lme sp buf = some out := by
  intro fuel
  induction fuel with
  | zero => intro lme sp buf h1 h2; omega
  | succ fuel ih =>
    intro lme sp buf h1 h2
    unfold replaceAll
    split
    · next hsp =>
      split
      · exact ⟨_, rfl⟩
      · next a0 a1 hd =>
        have hb := doExecute_bounds re src sp a0 a1 hd
        have hn := next_searchPos sp src.length a1 (by omega) hb.2.2
        exact ih _ _ _ hn.2 (by omega)
    · exact ⟨_, rfl⟩

theorem ReplaceAllStringFunc_total (re : Regex) (src : List Char)
    (f : List Char → List Char) : ∃ out, ReplaceAllStringFunc re src f = some out :=
  replaceAll_fuel re src f _ 0 0 [] (by omega) (by omega)

theorem replaceAllLoop_render (re : Regex) (src : List Char) (f : List Char → List Char) :
    ∀ fuel lme sp buf, replaceAll re src f fuel lme sp buf =
      (segsLoop re src fuel lme sp).map (fun l => buf ++ render f l) := by
  intro fuel
  induction fuel with
  | zero => intro lme sp buf; simp [replaceAll, segsLoop]
  | succ fuel ih =>
    intro lme sp buf
    simp only [replaceAll, segsLoop]
    split
    · split
      · simp [render]
      · next a0 a1 _ =>
        simp only [ih, Option.map_map]
        congr 1
        funext rest
        simp only [Function.comp]
        split <;> simp [render, List.append_assoc]
    · simp [render]

theorem processSingleLogEntry_render (salt : List Nat) (replaceAll : Bool)
    (logEntry : List Char) :
    processSingleLogEntry salt logEntry (compileRegexp replaceAll) =
      (segments replaceAll logEntry).map (render (hashIP salt)) := by
  unfold processSingleLogEntry segments
  cases compileRegexp replaceAll with
  | none => rfl
  | some re => simp [ReplaceAllStringFunc, replaceAllLoop_render]

theorem segments_req_all : segments true "req from 10.0.0.1 ok".toList =
    some [.lit "req from ".toList, .mat "10.0.0.1".toList, .lit " ok".toList] := by decide!

theorem segments_req_first : segments false "req from 10.0.0.1 ok".toList =
    some [.lit [], .mat "req from 10.0.0.1".toList, .lit " ok".toList] := by decide!

theorem compileRegexp_true : compileRegexp true = some (.alt (.cap ipv4Regexp) ipv6Regexp) := by
  decide!

theorem ipRegexp_props :
    bolFree (.alt (.cap ipv4Regexp) ipv6Regexp) = true ∧
    nullable (.alt (.cap ipv4Regexp) ipv6Regexp) = false := by
  decide!

theorem digit_inRanges (c : Char) (h : isDecDigit c = true) :
    inRanges [(48, 57)] c.toNat = true := by
  simpa [inRanges, isDecDigit] using h

theorem octetThen_match (rest : Regex) (g t : List Char) (p : Nat) (k : Cont) (e : Nat)
    (hg : isDigitGroup g = true)
    (hrest : matchK rest (p + g.length) ('.' :: t) k = some e) :
    matchK (octetThen rest) p (g ++ '.' :: t) k = some e := by
  have hdot : inRanges [(48, 57)] 46 = false := by decide
  simp only [isDigitGroup, Bool.and_eq_true, decide_eq_true_eq, List.all_eq_true] at hg
  obtain ⟨⟨h1, h3⟩, hd⟩ := hg
  match g, h1, h3, hd with
  | [a], _, _, hd =>
    have ha := digit_inRanges a (hd a (by simp))
    simp only [List.length_singleton] at hrest
    simp [octetThen, digitClass, matchK, ha, hdot, hrest]
  | [a, b], _, _, hd =>
    have ha := digit_inRanges a (hd a (by simp))
    have hb := digit_inRanges b (hd b (by simp))
    simp only [List.length_cons, List.length_nil] at hrest
    simp [octetThen, digitClass, matchK, ha, hb, hdot, hrest, Nat.add_assoc]
  | [a, b, c], _, _, hd =>
    have ha := digit_inRanges a (hd a (by simp))
    have hb := digit_inRanges b (hd b (by simp))
    have hc := digit_inRanges c (hd c (by simp))
    simp only [List.length_cons, List.length_nil] at hrest
    simp [octetThen, digitClass, matchK, ha, hb, hc, hdot, hrest, Nat.add_assoc]

theorem dotThen_match (rest : Regex) (t : List Char) (p : Nat) (k : Cont) :
    matchK (dotThen rest) p ('.' :: t) k = matchK rest (p + 1) t k := by
  have hdot : inRanges [(46, 46)] 46 = true := by decide
  simp [dotThen, matchK, hdot]

theorem lastOctet_match (g : List Char) (p : Nat) (hg : isDigitGroup g = true) :
    matchK lastOctet p g (fun e _ => some e) = some (p + g.length) := by
  simp only [isDigitGroup, Bool.and_eq_true, decide_eq_true_eq, List.all_eq_true] at hg
  obtain ⟨⟨h1, h3⟩, hd⟩ := hg
  match g, h1, h3, hd with
  | [a], _, _, hd =>
    have ha := digit_inRanges a (hd a (by simp))
    simp [lastOctet, digitClass, matchK, ha]
  | [a, b], _, _, hd =>
    have ha := digit_inRanges a (hd a (by simp))
    have hb := digit_inRanges b (hd b (by simp))
    simp [lastOctet, digitClass, matchK, ha, hb, Nat.add_assoc]
  | [a, b, c], _, _, hd =>
    have ha := digit_inRanges a (hd a (by simp))
    have hb := digit_inRanges b (hd b (by simp))
    have hc := digit_inRanges c (hd c (by simp))
    simp [lastOctet, digitClass, matchK, ha, hb, hc, Nat.add_assoc]

theorem ipv4Regexp_match (g1 g2 g3 g4 : List Char) (h1 : isDigitGroup g1 = true)
    (h2 : isDigitGroup g2 = true) (h3 : isDigitGroup g3 = true) (h4 : isDigitGroup g4 = true) :
    matchAt ipv4Regexp 0 (g1 ++ '.' :: (g2 ++ '.' :: (g3 ++ '.' :: g4))) =
      some (g1 ++ '.' :: (g2 ++ '.' :: (g3 ++ '.' :: g4))).length := by
  unfold matchAt ipv4Regexp
  apply octetThen_match _ _ _ _ _ _ h1
  rw [dotThen_match]
  apply octetThen_match _ _ _ _ _ _ h2
  rw [dotThen_match]
  apply octetThen_match _ _ _ _ _ _ h3
  rw [dotThen_match, lastOctet_match _ _ h4]
  simp only [List.length_append, List.length_cons]
  congr 1
  omega

theorem inv_init : Inv Sys.init := by
  simp [Inv, Sys.init]

theorem inv_step (l : Label) (s t : Sys) (h : Inv s) (hs : step l s = .next t) : Inv t := by
  obtain ⟨mu, gpc, d, salt, w, mpc, seen⟩ := s
  obtain ⟨hseen, hshape⟩ := h
  simp only at hseen hshape
  rcases hshape with ⟨rfl, rfl, rfl, rfl, ⟨rfl, rfl⟩ | ⟨rfl, rfl⟩ | ⟨rfl, rfl⟩⟩ |
    ⟨rfl, rfl, ⟨rfl, rfl, rfl, rfl⟩ | ⟨rfl, rfl, rfl, rfl⟩ | ⟨rfl, rfl, rfl⟩ | ⟨rfl, rfl, rfl⟩⟩
  all_goals
    rcases l with (_ | _) | _ <;>
    simp only [step, generateSalt, mainHashIP, Outcome.next.injEq, reduceCtorEq] at hs
  all_goals
    subst hs
    constructor
  all_goals
    first
    | exact hseen
    | (intro e he
       simp only [List.mem_cons] at he
       rcases he with rfl | he
       · rfl
       · exact hseen e he)
    | simp

theorem inv_run (ls : List Label) : ∀ s t, Inv s → run ls s = some t → Inv t := by
  induction ls with
  | nil => intro s t h hr; simp only [run, Option.some.injEq] at hr; exact hr ▸ h
  | cons l ls ih =>
    intro s t h hr
    simp only [run] at hr
    cases hst : step l s with
    | next u => rw [hst] at hr; exact ih u t (inv_step l s u h hst) hr
    | blocked => simp [hst] at hr
    | fatal => simp [hst] at hr

theorem inv_reachable (s : Sys) (h : Reachable s) : Inv s := by
  obtain ⟨ls, hr⟩ := h
  exact inv_run ls _ _ inv_init hr

/-! ## Helper lemmas for the claims -/

theorem pseudonym_eq_hashIP (salt : List Nat) (m : List Char) :
    pseudonym salt m = hashIP salt m := rfl

theorem hashIP_length (salt : List Nat) (ip : List Char) : (hashIP salt ip).length = 6 :=
  (encode16 _ (hmacMD5_length salt (stringBytes ip))).2.1

theorem hashIP_chars (salt : List Nat) (ip : List Char) :
    ∀ c ∈ hashIP salt ip, isBase64Char c = true ∧ c ≠ '=' :=
  (encode16 _ (hmacMD5_length salt (stringBytes ip))).2.2

theorem ReplacedEach.unique {re : Regex} {f : List Char → List Char} {s o1 : List Char}
    (h1 : ReplacedEach re f s o1) : ∀ o2, ReplacedEach re f s o2 → o1 = o2 := by
  induction h1 with
  | done s hnone =>
    intro o2 h2
    cases h2 with
    | done _ _ => rfl
    | step pre m post out _ hsome _ => rw [hnone] at hsome; cases hsome
  | step pre m post out hne hsome _ ih =>
    intro o2 h2
    generalize hs : pre ++ m ++ post = s at h2 hsome
    cases h2 with
    | done _ hnone => rw [hnone] at hsome; cases hsome
    | step pre2 m2 post2 out2 _ hsome2 hrec2 =>
      rw [hsome2] at hsome
      simp only [Option.some.injEq, Prod.mk.injEq] at hsome
      obtain ⟨hp, hm⟩ := hsome
      have hm : m2.length = m.length := by omega
      rw [List.append_assoc, List.append_assoc] at hs
      obtain ⟨e1, e2⟩ := List.append_inj hs hp.symm
      obtain ⟨e3, e4⟩ := List.append_inj e2 hm.symm
      subst e1 e3 e4
      rw [ih out2 hrec2]

theorem matchAt_nil_of_not_nullable (re : Regex) (hn : nullable re = false) (p : Nat) :
    matchAt re p [] = none := by
  cases h : matchAt re p [] with
  | none => rfl
  | some e =>
    have := matchAt_bounds re p [] e h
    have h2 := this.2.2 hn
    simp only [List.length_nil] at this
    omega

theorem ReplaceAllStringFunc_whole (re : Regex) (hn : nullable re = false) (s : List Char)
    (f : List Char → List Char) (hs : s ≠ [])
    (hm : matchAt re 0 s = some s.length) :
    ReplaceAllStringFunc re s f = some (f s) := by
  have hpos : 0 < s.length := List.length_pos.mpr hs
  have h0 : doExecute re s 0 = some (0, s.length) := by
    cases s with
    | nil => exact absurd rfl hs
    | cons c cs => simp [doExecute, searchFrom, hm]
  have hend : doExecute re s s.length = none := by
    simp [doExecute, searchFrom, matchAt_nil_of_not_nullable re hn]
  have c1 : ¬ (0 + 1 > s.length) := by omega
  simp [ReplaceAllStringFunc, replaceAll, h0, hend, hpos, c1, slice]

/-! ## Traces of the entries used below -/

theorem compileRegexp_false : compileRegexp false =
    some (.alt (.cat .bol (.cat (.cap (.star false anyNotNL)) (.cap ipv4Regexp)))
      (.cat ipv6Regexp (.cat (.cap (.star true anyNotNL)) .eol))) := by
  decide!

theorem segments_first_two_v4 : segments false "10.0.0.1 and 10.0.0.2".toList =
    some [.lit [], .mat "10.0.0.1".toList, .lit " and 10.0.0.2".toList] := by decide!

theorem segments_first_v4_v6 : segments false "10.0.0.1 and ::1".toList =
    some [.lit [], .mat "10.0.0.1".toList, .lit " and ".toList, .mat "::1".toList, .lit []] := by
  decide!

theorem segments_first_v6_v4 : segments false "::1 and 10.0.0.1".toList =
    some [.lit [], .mat "::1 and 10.0.0.1".toList, .lit []] := by decide!

theorem segments_expanded : segments true "1:2:3:4:5:6:7:8".toList =
    some [.lit [], .mat "1:2:3:4:5:6:7:8".toList, .lit []] := by decide!

theorem segments_loopback : segments true "::1".toList =
    some [.lit [], .mat "::1".toList, .lit []] := by decide!

theorem segments_compressed : segments true "2001:db8::1".toList =
    some [.lit [], .mat "2001:db8::".toList, .lit "1".toList] := by decide!

theorem segments_zone : segments true "fe80::1%eth0".toList =
    some [.lit [], .mat "fe80::".toList, .lit "1%eth0".toList] := by decide!

theorem segments_mapped : segments true "::ffff:10.0.0.1".toList =
    some [.lit [], .mat "::ffff:10".toList, .lit ".0.0.1".toList] := by decide!

theorem leftmost_req : (compileRegexp true).bind
    (fun re => doExecute re "req from 10.0.0.1 ok".toList 0) = some (9, 17) := by decide!

theorem segments_all_v4_v6 : segments true "10.0.0.1 and ::1".toList =
    some [.lit [], .mat "10.0.0.1".toList, .lit " and ".toList, .mat "::1".toList, .lit []] := by
  decide!

theorem segments_all_v6_v4 : segments true "::1 and 10.0.0.1".toList =
    some [.lit [], .mat "::1".toList, .lit " and ".toList, .mat "10.0.0.1".toList, .lit []] := by
  decide!

/-! ## The claims -/

/-- C1: in replace-all mode, for every salt and every line, `processSingleLogEntry` returns
the line in which each successive non-overlapping leftmost match of the address pattern is
replaced by its pseudonym, the first six characters of base64(HMAC-MD5(salt, match)), and all
other text is kept in place (`ReplacedEach`); a line without a match is returned unchanged;
and `req from 10.0.0.1 ok` becomes `req from `, the pseudonym of `10.0.0.1`, then ` ok`. -/
theorem processSingleLogEntry_replaces_each_match :
    (∀ (salt : List Nat) (line : List Char), ∃ re out, compileRegexp true = some re ∧
      processSingleLogEntry salt line (compileRegexp true) = some out ∧
      ReplacedEach re (pseudonym salt) line out) ∧
    (∀ (salt : List Nat) (line : List Char),
      (compileRegexp true).bind (fun re => doExecute re line 0) = none →
      processSingleLogEntry salt line (compileRegexp true) = some line) ∧
    (∀ salt : List Nat,
      processSingleLogEntry salt "req from 10.0.0.1 ok".toList (compileRegexp true) =
        some ("req from ".toList ++ pseudonym salt "10.0.0.1".toList ++ " ok".toList)) := by
  refine ⟨?_, ?_, ?_⟩
  · intro salt line
    obtain ⟨out, h1, h2⟩ := ReplaceAllStringFunc_spec _ ipRegexp_props.1 ipRegexp_props.2 line
      (hashIP salt)
    exact ⟨_, out, compileRegexp_true, by rw [compileRegexp_true]; exact h1, h2⟩
  · intro salt line hnone
    rw [compileRegexp_true] at hnone ⊢
    change doExecute _ line 0 = none at hnone
    simp [processSingleLogEntry, ReplaceAllStringFunc, replaceAll, hnone]
  · intro salt
    rw [processSingleLogEntry_render, segments_req_all]
    simp [render, pseudonym, hashIP]

/-- C2 (evaluation of the code): in first-only mode the compiled pattern is the alternation of
`^(.*?)(ipv4)` and `(ipv6)(.*)$`. In the entry `req from 10.0.0.1 ok` the leftmost match of
the address pattern is `10.0.0.1`, at positions 9 to 17, but the entry becomes the hash of
`req from 10.0.0.1` followed by ` ok`: the text before the address is hashed with it, and
the result is not `req from `, the pseudonym of `10.0.0.1`, ` ok`. -/
theorem processSingleLogEntry_firstOnly_hashes_prefix (salt : List Nat) :
    compileRegexp false =
      some (.alt (.cat .bol (.cat (.cap (.star false anyNotNL)) (.cap ipv4Regexp)))
        (.cat ipv6Regexp (.cat (.cap (.star true anyNotNL)) .eol))) ∧
    (compileRegexp true).bind (fun re => doExecute re "req from 10.0.0.1 ok".toList 0) =
      some (9, 17) ∧
    processSingleLogEntry salt "req from 10.0.0.1 ok".toList (compileRegexp false) =
      some (hashIP salt "req from 10.0.0.1".toList ++ " ok".toList) ∧
    processSingleLogEntry salt "req from 10.0.0.1 ok".toList (compileRegexp false) ≠
      some ("req from ".toList ++ pseudonym salt "10.0.0.1".toList ++ " ok".toList) := by
  have h : processSingleLogEntry salt "req from 10.0.0.1 ok".toList (compileRegexp false) =
      some (hashIP salt "req from 10.0.0.1".toList ++ " ok".toList) := by
    rw [processSingleLogEntry_render, segments_req_first]
    simp [render]
  refine ⟨compileRegexp_false, leftmost_req, h, ?_⟩
  rw [h]
  intro heq
  have hp : pseudonym salt "10.0.0.1".toList = hashIP salt "10.0.0.1".toList := rfl
  have hlen := congrArg (fun o => o.map List.length) heq
  simp [hp, hashIP_length] at hlen

theorem colon_not_in_hashIP (salt : List Nat) (ip : List Char) : ':' ∉ hashIP salt ip := by
  intro h
  have := (hashIP_chars salt ip ':' h).1
  revert this
  decide

/-- C3 (evaluation of the code): in first-only mode the claim's own example keeps its second
address. But in `10.0.0.1 and ::1` and in `::1 and 10.0.0.1`, whose two addresses are the
two matches of the address pattern, the second address does not stay: the first entry
becomes the hash of `10.0.0.1`, ` and `, the hash of `::1`, a text without any `:`, and the
second entry becomes the hash of the whole line, six characters. -/
theorem processSingleLogEntry_firstOnly_second_address (salt : List Nat) :
    processSingleLogEntry salt "10.0.0.1 and 10.0.0.2".toList (compileRegexp false) =
      some (hashIP salt "10.0.0.1".toList ++ " and 10.0.0.2".toList) ∧
    processSingleLogEntry salt "10.0.0.1 and ::1".toList (compileRegexp true) =
      some (hashIP salt "10.0.0.1".toList ++ " and ".toList ++ hashIP salt "::1".toList) ∧
    processSingleLogEntry salt "10.0.0.1 and ::1".toList (compileRegexp false) =
      some (hashIP salt "10.0.0.1".toList ++ " and ".toList ++ hashIP salt "::1".toList) ∧
    ':' ∉ hashIP salt "10.0.0.1".toList ++ " and ".toList ++ hashIP salt "::1".toList ∧
    processSingleLogEntry salt "::1 and 10.0.0.1".toList (compileRegexp true) =
      some (hashIP salt "::1".toList ++ " and ".toList ++ hashIP salt "10.0.0.1".toList) ∧
    processSingleLogEntry salt "::1 and 10.0.0.1".toList (compileRegexp false) =
      some (hashIP salt "::1 and 10.0.0.1".toList) ∧
    (hashIP salt "::1 and 10.0.0.1".toList).length = 6 := by
  refine ⟨?_, ?_, ?_, ?_, ?_, ?_, hashIP_length _ _⟩
  · rw [processSingleLogEntry_render, segments_first_two_v4]
    simp [render]
  · rw [processSingleLogEntry_render, segments_all_v4_v6]
    simp [render]
  · rw [processSingleLogEntry_render, segments_first_v4_v6]
    simp [render]
  · intro h
    simp only [List.mem_append] at h
    rcases h with (h | h) | h
    · exact colon_not_in_hashIP _ _ h
    · revert h; decide
    · exact colon_not_in_hashIP _ _ h
  · rw [processSingleLogEntry_render, segments_all_v6_v4]
    simp [render]
  · rw [processSingleLogEntry_render, segments_first_v6_v4]
    simp [render]

/-- C4 (evaluation of the code): in replace-all mode the expanded form and `::1` are replaced
as a whole, but of `2001:db8::1` only `2001:db8::` is matched, of `fe80::1%eth0` only
`fe80::`, and of `::ffff:10.0.0.1` only `::ffff:10`; the rest of each literal stays in the
output, which therefore is not the pseudonym of the entire line. -/
theorem processSingleLogEntry_ipv6_forms (salt : List Nat) :
    processSingleLogEntry salt "1:2:3:4:5:6:7:8".toList (compileRegexp true) =
      some (pseudonym salt "1:2:3:4:5:6:7:8".toList) ∧
    processSingleLogEntry salt "::1".toList (compileRegexp true) =
      some (pseudonym salt "::1".toList) ∧
    processSingleLogEntry salt "2001:db8::1".toList (compileRegexp true) =
      some (hashIP salt "2001:db8::".toList ++ "1".toList) ∧
    processSingleLogEntry salt "fe80::1%eth0".toList (compileRegexp true) =
      some (hashIP salt "fe80::".toList ++ "1%eth0".toList) ∧
    processSingleLogEntry salt "::ffff:10.0.0.1".toList (compileRegexp true) =
      some (hashIP salt "::ffff:10".toList ++ ".0.0.1".toList) ∧
    processSingleLogEntry salt "2001:db8::1".toList (compileRegexp true) ≠
      some (pseudonym salt "2001:db8::1".toList) ∧
    processSingleLogEntry salt "fe80::1%eth0".toList (compileRegexp true) ≠
      some (pseudonym salt "fe80::1%eth0".toList) ∧
    processSingleLogEntry salt "::ffff:10.0.0.1".toList (compileRegexp true) ≠
      some (pseudonym salt "::ffff:10.0.0.1".toList) := by
  have h1 : processSingleLogEntry salt "2001:db8::1".toList (compileRegexp true) =
      some (hashIP salt "2001:db8::".toList ++ "1".toList) := by
    rw [processSingleLogEntry_render, segments_compressed]
    simp [render]
  have h2 : processSingleLogEntry salt "fe80::1%eth0".toList (compileRegexp true) =
      some (hashIP salt "fe80::".toList ++ "1%eth0".toList) := by
    rw [processSingleLogEntry_render, segments_zone]
    simp [render]
  have h3 : processSingleLogEntry salt "::ffff:10.0.0.1".toList (compileRegexp true) =
      some (hashIP salt "::ffff:10".toList ++ ".0.0.1".toList) := by
    rw [processSingleLogEntry_render, segments_mapped]
    simp [render]
  refine ⟨?_, ?_, h1, h2, h3, ?_, ?_, ?_⟩
  · rw [processSingleLogEntry_render, segments_expanded]
    simp [render, pseudonym_eq_hashIP]
  · rw [processSingleLogEntry_render, segments_loopback]
    simp [render, pseudonym_eq_hashIP]
  · rw [h1]
    intro heq
    have hlen := congrArg (fun o => o.map List.length) heq
    simp [pseudonym_eq_hashIP, hashIP_length] at hlen
  · rw [h2]
    intro heq
    have hlen := congrArg (fun o => o.map List.length) heq
    simp [pseudonym_eq_hashIP, hashIP_length] at hlen
  · rw [h3]
    intro heq
    have hlen := congrArg (fun o => o.map List.length) heq
    simp [pseudonym_eq_hashIP, hashIP_length] at hlen

/-- C7: for every salt and every input, the base64 text of the HMAC-MD5 digest has 24
characters, so the slice `[:6]` of `hashIP` is in bounds, and `hashIP` returns exactly six
characters, each of the alphabet `A-Z a-z 0-9 + /` and none the padding character `=`. -/
theorem hashIP_six_base64_chars (salt : List Nat) (ip : List Char) :
    (hmacMD5 salt (stringBytes ip)).length = 16 ∧
    (EncodeToString (hmacMD5 salt (stringBytes ip))).length = 24 ∧
    (hashIP salt ip).length = 6 ∧
    ∀ c ∈ hashIP salt ip, isBase64Char c = true ∧ c ≠ '=' :=
  ⟨hmacMD5_length _ _, (encode16 _ (hmacMD5_length salt (stringBytes ip))).1,
    hashIP_length salt ip, hashIP_chars salt ip⟩

theorem matchAt_alt_cap (a b : Regex) (p : Nat) (s : List Char) (e : Nat)
    (h : matchAt a p s = some e) : matchAt (.alt (.cap a) b) p s = some e := by
  simp only [matchAt, matchK] at h ⊢
  rw [h]

/-- C9: every string of four groups of one to three decimal digits separated by single dots
is one whole match: in replace-all mode `processSingleLogEntry` returns exactly the pseudonym
of the string, for every salt and without any check of the range of the groups. -/
theorem processSingleLogEntry_dotted_quad (salt : List Nat) (g1 g2 g3 g4 : List Char)
    (h1 : isDigitGroup g1 = true) (h2 : isDigitGroup g2 = true)
    (h3 : isDigitGroup g3 = true) (h4 : isDigitGroup g4 = true) :
    processSingleLogEntry salt (g1 ++ '.' :: (g2 ++ '.' :: (g3 ++ '.' :: g4)))
        (compileRegexp true) =
      some (pseudonym salt (g1 ++ '.' :: (g2 ++ '.' :: (g3 ++ '.' :: g4)))) := by
  rw [compileRegexp_true]
  have hm := ipv4Regexp_match g1 g2 g3 g4 h1 h2 h3 h4
  apply ReplaceAllStringFunc_whole _ ipRegexp_props.2
  · intro h
    have := congrArg List.length h
    simp at this
  · exact matchAt_alt_cap _ _ _ _ _ hm

/-- C9 at `999.999.999.999`. -/
theorem processSingleLogEntry_dotted_quad_999 :
    processSingleLogEntry (List.replicate 16 0) "999.999.999.999".toList (compileRegexp true) =
      some (pseudonym (List.replicate 16 0) "999.999.999.999".toList) :=
  processSingleLogEntry_dotted_quad (List.replicate 16 0) "999".toList "999".toList
    "999".toList "999".toList (by decide) (by decide) (by decide) (by decide)

/-- C5 (evaluation of the code): `generateSalt` fills the salt once and never again. In every
reachable state, under every schedule and every behaviour of the random source, `rand.Read`
has returned at most once; and running the loop alone reaches, after four statements, a state
with one write in which the second `mu.Lock()` is blocked for good: the deferred
`mu.Unlock()` of the first round is still pending because `generateSalt` never returns. -/
theorem generateSalt_fills_salt_once :
    (∀ s, Reachable s → s.writes ≤ 1) ∧
    (∀ r : ReadResult, ∃ s, run [.gen (.returns r), .gen (.returns r), .gen (.returns r),
        .gen (.returns r)] Sys.init = some s ∧
      s.writes = 1 ∧ s.genPc = .lock ∧ s.mu = some .gen ∧ s.genDeferred = 1 ∧
      ∀ r2, generateSalt r2 s = .blocked) ∧
    (∀ s, Reachable s → s.mu = some .gen → ∀ l t, step l s = .next t → t.mu = some .gen) := by
  refine ⟨?_, ?_, ?_⟩
  · intro s hs
    obtain ⟨-, hshape⟩ := inv_reachable s hs
    rcases hshape with ⟨-, -, h, -⟩ | ⟨-, -, ⟨-, -, h, -⟩ | ⟨-, -, h, -⟩ | ⟨-, -, h⟩ | ⟨-, -, h⟩⟩ <;>
      omega
  · intro r
    exact ⟨_, rfl, rfl, rfl, rfl, rfl, fun _ => rfl⟩
  · intro s hs hmu l t hst
    obtain ⟨mu, gpc, d, salt, w, mpc, seen⟩ := s
    obtain ⟨-, hshape⟩ := inv_reachable _ hs
    simp only at hshape hmu
    subst hmu
    rcases hshape with ⟨-, -, -, -, ⟨h, -⟩ | ⟨h, -⟩ | ⟨h, -⟩⟩ |
      ⟨-, rfl, ⟨rfl, -⟩ | ⟨rfl, -⟩ | ⟨rfl, -⟩ | ⟨rfl, -⟩⟩
    · cases h
    · cases h
    · cases h
    all_goals
      rcases l with (_ | _) | _ <;>
      simp only [step, generateSalt, mainHashIP, Outcome.next.injEq, reduceCtorEq] at hst <;>
      subst hst <;> rfl

/-- C6 (evaluation of the code): whenever `generateSalt` is sleeping, it holds the mutex (its
deferred unlock is pending), so a `hashIP` call that reaches `mu.Lock()` is blocked during
the sleep; such a state is reached after three statements of the loop. -/
theorem generateSalt_sleeps_holding_mutex :
    (∀ s, Reachable s → s.genPc = .sleep →
      s.mu = some .gen ∧ s.genDeferred = 1 ∧ s.mainPc = .lock ∧ mainHashIP s = .blocked) ∧
    (∀ r : ReadResult, ∃ s, run [.gen (.returns r), .gen (.returns r), .gen (.returns r)]
        Sys.init = some s ∧
      s.genPc = .sleep ∧ s.mu = some .gen ∧ mainHashIP s = .blocked) := by
  refine ⟨?_, ?_⟩
  · intro s hs hpc
    obtain ⟨mu, gpc, d, salt, w, mpc, seen⟩ := s
    obtain ⟨-, hshape⟩ := inv_reachable _ hs
    simp only at hshape hpc
    subst hpc
    rcases hshape with ⟨h, -⟩ | ⟨rfl, rfl, ⟨h, -⟩ | ⟨h, -⟩ | ⟨-, rfl, -⟩ | ⟨h, -⟩⟩
    · cases h
    · cases h
    · cases h
    · exact ⟨rfl, rfl, rfl, rfl⟩
    · cases h
  · intro r
    exact ⟨_, rfl, rfl, rfl, rfl⟩

/-- C8 (counterexample): at the `rand.Read(salt)` of `generateSalt`, a call that returns a
non-nil error after three bytes is not fatal: the loop goes on to sleep, holding the mutex,
with a salt whose first three bytes are new and whose other bytes are the old ones, and the
sleep ends as usual. The state before the read is the one reached by the first two statements
of the loop. -/
theorem generateSalt_read_error_example :
    failedRead.err = true ∧
    sourceFailure false [1, 2, 3] = .returns failedRead ∧
    run [.gen (.returns failedRead), .gen (.returns failedRead)] Sys.init = some beforeRead ∧
    generateSalt (.returns failedRead) beforeRead =
      .next { mu := some .gen, genPc := .sleep, genDeferred := 1,
              salt := [1, 2, 3, 0, 0, 0, 0, 0, 0, 0, 0, 0, 0, 0, 0, 0], writes := 1,
              mainPc := .lock, seen := [] } ∧
    generateSalt (.returns failedRead) beforeRead ≠ .fatal ∧
    run [.gen (.returns failedRead), .gen (.returns failedRead)] beforeRead =
      some { mu := some .gen, genPc := .lock, genDeferred := 1,
             salt := [1, 2, 3, 0, 0, 0, 0, 0, 0, 0, 0, 0, 0, 0, 0, 0], writes := 1,
             mainPc := .lock, seen := [] } := by
  decide

/-- C8 (amended): `generateSalt` never checks the result of `rand.Read`, so what a failure of
the random source does is decided by `crypto/rand`. Where the library ends the process on a
failing source, the step is fatal. Where `rand.Read` returns a non-nil error, possibly after
fewer than sixteen bytes, the error is discarded: the step is not fatal, it leads to the sleep
with the mutex as it was, and the salt then consists of the bytes that were read followed by
the old bytes beyond them, at its old length. In the whole program a step is fatal only at
`rand.Read`, and only by the library. -/
theorem generateSalt_discards_read_error (s : Sys) (hpc : s.genPc = .read) :
    (∀ bytes, generateSalt (sourceFailure true bytes) s = .fatal) ∧
    (∀ bytes, generateSalt (sourceFailure false bytes) s ≠ .fatal ∧
      ∃ t, generateSalt (sourceFailure false bytes) s = .next t ∧ t.genPc = .sleep ∧
        t.mu = s.mu ∧ t.salt = bytes.take s.salt.length ++ s.salt.drop bytes.length ∧
        t.salt.length = s.salt.length) ∧
    (∀ r : ReadResult, generateSalt (.returns r) s =
      generateSalt (.returns { bytes := r.bytes, err := false }) s) ∧
    (∀ (l : Label) (u : Sys), step l u = .fatal ↔ l = .gen .aborts ∧ u.genPc = .read) := by
  refine ⟨?_, ?_, ?_, ?_⟩
  · intro bytes
    simp [sourceFailure, generateSalt, hpc]
  · intro bytes
    have hlen : (bytes.take s.salt.length ++ s.salt.drop bytes.length).length =
        s.salt.length := by
      simp only [List.length_append, List.length_take, List.length_drop]
      omega
    refine ⟨by simp [sourceFailure, generateSalt, hpc],
      { s with salt := fill s.salt bytes, writes := s.writes + 1, genPc := .sleep },
      by simp [sourceFailure, generateSalt, hpc], rfl, rfl, rfl, hlen⟩
  · intro r
    simp [generateSalt, hpc]
  · intro l u
    cases l with
    | gen x =>
      cases x with
      | returns r =>
        simp only [step, generateSalt]
        cases u.genPc <;> cases u.mu <;> simp
      | aborts =>
        simp only [step, generateSalt]
        cases u.genPc <;> cases u.mu <;> simp
    | main =>
      simp only [step, mainHashIP]
      cases u.mainPc <;> cases u.mu <;> simp

/-- C8 (amended) in the state before the first `rand.Read`, with a source that fails after
three bytes. -/
theorem generateSalt_discards_read_error_at_three :
    beforeRead.genPc = .read ∧
    generateSalt (sourceFailure true [1, 2, 3]) beforeRead = .fatal ∧
    generateSalt (sourceFailure false [1, 2, 3]) beforeRead ≠ .fatal ∧
    ∃ t, generateSalt (sourceFailure false [1, 2, 3]) beforeRead = .next t ∧ t.genPc = .sleep ∧
      t.mu = beforeRead.mu ∧
      t.salt = [1, 2, 3].take beforeRead.salt.length ++ beforeRead.salt.drop [1, 2, 3].length ∧
      t.salt.length = beforeRead.salt.length :=
  ⟨rfl, (generateSalt_discards_read_error beforeRead rfl).1 [1, 2, 3],
    (generateSalt_discards_read_error beforeRead rfl).2.1 [1, 2, 3]⟩

/-- C10 (evaluation of the code): the line loop can complete a `hashIP` call before
`generateSalt` has locked the mutex, and then reads the initial sixteen zero bytes, under
which `10.0.0.1` always becomes `HPZLRn`; and since `generateSalt` never releases the mutex,
every `hashIP` call that gets to read the salt at all reads it before any `rand.Read`: it
sees zero writes and the initial zero salt. -/
theorem hashIP_reads_initial_salt :
    (∃ s, run [.main, .main, .main] Sys.init = some s ∧ s.mainPc = .lock ∧
      s.seen = [(0, zeroSalt)] ∧ s.writes = 0 ∧
      zeroSalt = [0, 0, 0, 0, 0, 0, 0, 0, 0, 0, 0, 0, 0, 0, 0, 0] ∧
      hashIP zeroSalt "10.0.0.1".toList = "HPZLRn".toList) ∧
    (∀ s, Reachable s → ∀ e ∈ s.seen, e = (0, zeroSalt)) := by
  refine ⟨⟨_, rfl, rfl, rfl, rfl, rfl, hashIP_zeroSalt⟩, ?_⟩
  intro s hs
  exact (inv_reachable s hs).1

end Cryptolog
